import Mathlib

set_option maxRecDepth 4000
set_option maxHeartbeats 1000000

/-!
Shallow embedding of the sophia compiler front end: the scanner
(`src/scanner.rs`) and the recursive-descent parser (`src/parser.rs`),
together with proofs of the specification's claims about them.

Source text is modelled as a `List Char` (the code points of the Rust
`&str`), byte positions as `Nat` computed with `Char.utf8Size` (Rust
`char::len_utf8`).  Fallible steps return explicit outcome types; the
Rust `todo!`, `debug_assert_eq!` and `unwrap` fatal paths are modelled
as explicit fatal outcomes, distinct from recoverable `CompileError`s.
-/

namespace Sophia

/-! ## Character classes (the Rust std predicates used by scanner.rs) -/

/-- Rust `char::is_ascii_whitespace`: space, horizontal tab, newline,
form feed, carriage return. -/
def isAsciiWhitespace (c : Char) : Bool :=
  c.toNat = 32 || c.toNat = 9 || c.toNat = 10 || c.toNat = 12 || c.toNat = 13

/-- Rust `char::is_ascii_digit`, and the scanner's pattern `'0'..='9'`. -/
def isAsciiDigit (c : Char) : Bool :=
  48 ≤ c.toNat && c.toNat ≤ 57

/-- The scanner's identifier-start pattern `'a'..='z' | 'A'..='Z' | '_'`. -/
def isIdentStart (c : Char) : Bool :=
  (97 ≤ c.toNat && c.toNat ≤ 122) || (65 ≤ c.toNat && c.toNat ≤ 90) || c.toNat = 95

/-- The scanner's identifier-continuation pattern
`'a'..='z' | 'A'..='Z' | '_' | '0'..='9'` in `scan_identifier`. -/
def isIdentCont (c : Char) : Bool :=
  isIdentStart c || isAsciiDigit c

/-! ## Byte-offset arithmetic over code-point lists -/

/-- Total UTF-8 byte length of a list of code points (Rust `str::len`). -/
def utf8Len : List Char → Nat
  | [] => 0
  | c :: cs => c.utf8Size + utf8Len cs

/-- Byte-slicing prefix: keep the first `n` bytes of a code-point list, as
slicing a Rust `&str` does.  The scanner only slices at code-point
boundaries; a cut that would fall inside a code point stops early. -/
def takeBytes : List Char → Nat → List Char
  | _, 0 => []
  | [], _ => []
  | c :: cs, n+1 => if c.utf8Size ≤ n+1 then c :: takeBytes cs (n + 1 - c.utf8Size) else []

/-- Byte-slicing suffix: drop the first `n` bytes of a code-point list. -/
def dropBytes : List Char → Nat → List Char
  | l, 0 => l
  | [], _ => []
  | c :: cs, n+1 => if c.utf8Size ≤ n+1 then dropBytes cs (n + 1 - c.utf8Size) else []

/-! ## Tokens (scanner.rs lines 141-199) -/

/-- Rust enum `Keyword`. -/
inductive Keyword where
  | I32 | If | Else | For | Break | Continue
deriving Repr, DecidableEq

/-- Rust enum `Delim`. -/
inductive Delim where
  | Paren | Curly
deriving Repr, DecidableEq

/-- Rust enum `TokenKind`.  All variants are from scanner.rs.  The extra
`Eof` variant is the kind of the sentinel token: modelled from the spec,
which says `peek()`/`look_ahead(n)` "return a sentinel end-of-stream
token" once the cursor runs past the buffer; the `Token::eof()`
constructor itself is not under src/. -/
inductive TokenKind where
  | UnitConstant
  | IntegerConstant
  | Identifier
  | Comma
  | Excla
  | Star
  | Slash
  | Plus
  | Dash
  | Less
  | Greater
  | LessLess
  | GreaterGreater
  | LessEqual
  | GreaterEqual
  | Colon
  | ColonColon
  | ColonEqual
  | Semi
  | DashGreater
  | PeriodPeriod
  | PeriodPeriodEqual
  | Keyword (k : Keyword)
  | Open (d : Delim)
  | Closed (d : Delim)
  | Eof
deriving Repr, DecidableEq

/-- Rust struct `Span`: half-open byte range `[start, end)`.  The Rust
field `end` is renamed `stop` (`end` is a Lean keyword). -/
structure Span where
  start : Nat
  stop : Nat
deriving Repr, DecidableEq

/-- Rust struct `Token`. -/
structure Token where
  kind : TokenKind
  span : Span
deriving Repr, DecidableEq

/-- Modelled from the spec: `Token::eof()` is referenced by parser.rs but
not defined under src/; the spec calls it "a sentinel end-of-stream
token (not an error)". -/
def Token.eof : Token := { kind := TokenKind.Eof, span := { start := 0, stop := 0 } }

/-! ## Scanner (scanner.rs lines 6-139) -/

/-- Rust `Scanner::EOF_CHAR`. -/
def EOF_CHAR : Char := '\x00'

/-- Rust struct `Scanner`: the source text held by the context
(`ctx.get_source_code()`), the remaining `Peekable<Chars>` stream, and
`current_peek_pos` in bytes. -/
structure Scanner where
  src : List Char
  stream : List Char
  current_peek_pos : Nat
deriving Repr

/-- Rust `Scanner::new`: the stream starts at the head of the source. -/
def Scanner.new (src : List Char) : Scanner :=
  { src := src, stream := src, current_peek_pos := 0 }

/-- Rust `Scanner::peek`: the next code point, or `EOF_CHAR` at end. -/
def Scanner.peek (s : Scanner) : Char :=
  s.stream.headD EOF_CHAR

/-- Rust `Scanner::bump`: returns the peeked code point; when it is not
`EOF_CHAR`, advances the stream and the byte position by its UTF-8
size. -/
def Scanner.bump (s : Scanner) : Char × Scanner :=
  let peeked := s.peek
  if peeked ≠ EOF_CHAR then
    (peeked, { s with stream := s.stream.tail,
                      current_peek_pos := s.current_peek_pos + peeked.utf8Size })
  else
    (peeked, s)

/-- The loop of Rust `Scanner::skip_whitespace`, phrased structurally on
the remaining stream: `while self.peek().is_ascii_whitespace()
{ self.bump(); }` (at end of stream `peek` is `EOF_CHAR`, which is not
whitespace, so the empty stream stops the loop). -/
def skipWhitespaceLoop : List Char → Nat → List Char × Nat
  | [], pos => ([], pos)
  | c :: cs, pos =>
    if isAsciiWhitespace c then skipWhitespaceLoop cs (pos + c.utf8Size)
    else (c :: cs, pos)

/-- Rust `Scanner::skip_whitespace`. -/
def Scanner.skipWhitespace (s : Scanner) : Scanner :=
  let r := skipWhitespaceLoop s.stream s.current_peek_pos
  { src := s.src, stream := r.1, current_peek_pos := r.2 }

/-- The loop of Rust `Scanner::scan_integer_constant`:
`while self.peek().is_ascii_digit() { self.bump(); }`. -/
def scanIntegerLoop : List Char → Nat → List Char × Nat
  | [], pos => ([], pos)
  | c :: cs, pos =>
    if isAsciiDigit c then scanIntegerLoop cs (pos + c.utf8Size)
    else (c :: cs, pos)

/-- Rust `Scanner::scan_integer_constant`: greedily consume ASCII
digits, then emit `IntegerConstant`. -/
def Scanner.scanIntegerConstant (s : Scanner) : TokenKind × Scanner :=
  let r := scanIntegerLoop s.stream s.current_peek_pos
  (TokenKind.IntegerConstant, { src := s.src, stream := r.1, current_peek_pos := r.2 })

/-- The keyword-table match at the end of `scan_identifier`. -/
def keywordOrIdent (ident_text : List Char) : TokenKind :=
  if ident_text = "i32".toList then TokenKind.Keyword Keyword.I32
  else if ident_text = "if".toList then TokenKind.Keyword Keyword.If
  else if ident_text = "else".toList then TokenKind.Keyword Keyword.Else
  else if ident_text = "for".toList then TokenKind.Keyword Keyword.For
  else if ident_text = "break".toList then TokenKind.Keyword Keyword.Break
  else if ident_text = "continue".toList then TokenKind.Keyword Keyword.Continue
  else TokenKind.Identifier

/-- The loop of Rust `Scanner::scan_identifier`:
`while matches!(self.peek(), letter | digit | underscore)
{ self.bump(); }`. -/
def scanIdentLoop : List Char → Nat → List Char × Nat
  | [], pos => ([], pos)
  | c :: cs, pos =>
    if isIdentCont c then scanIdentLoop cs (pos + c.utf8Size)
    else (c :: cs, pos)

/-- Rust `Scanner::scan_identifier`: greedily consume identifier
characters, then slice the source between `ident_span_start` and the
current byte position and look the slice up in the keyword table. -/
def Scanner.scanIdentifier (s : Scanner) (ident_span_start : Nat) : TokenKind × Scanner :=
  let r := scanIdentLoop s.stream s.current_peek_pos
  let ident_text := takeBytes (dropBytes s.src ident_span_start) (r.2 - ident_span_start)
  (keywordOrIdent ident_text, { src := s.src, stream := r.1, current_peek_pos := r.2 })

/-- Dispatch on the first consumed code point: the arms of the Rust
`match self.bump()` in `scan_next_token`, arm by arm, including the
guarded `'-'` and `'.'` arms (whose guard failure falls through to the
`todo!` catch-all, here `Except.error ()`).  `c` is the consumed code
point, `span_start` the byte position before it, `s2` the scanner
right after consuming it. -/
def scanTokenKind (c : Char) (span_start : Nat) (s2 : Scanner) :
    Except Unit (TokenKind × Scanner) :=
  if c = ';' then .ok (TokenKind.Semi, s2)
  else if c = ':' then
    if s2.peek = ':' then .ok (TokenKind.ColonColon, (s2.bump).2)
    else if s2.peek = '=' then .ok (TokenKind.ColonEqual, (s2.bump).2)
    else .ok (TokenKind.Colon, s2)
  else if c = '(' then .ok (TokenKind.Open Delim.Paren, s2)
  else if c = ')' then .ok (TokenKind.Closed Delim.Paren, s2)
  else if c = '{' then .ok (TokenKind.Open Delim.Curly, s2)
  else if c = '}' then .ok (TokenKind.Closed Delim.Curly, s2)
  else if c = '-' ∧ s2.peek = '>' then .ok (TokenKind.DashGreater, (s2.bump).2)
  else if c = '.' ∧ s2.peek = '.' then
    if ((s2.bump).2).peek = '=' then
      .ok (TokenKind.PeriodPeriodEqual, ((((s2.bump).2)).bump).2)
    else .ok (TokenKind.PeriodPeriod, (s2.bump).2)
  else if isAsciiDigit c then .ok s2.scanIntegerConstant
  else if isIdentStart c then .ok (s2.scanIdentifier span_start)
  else .error ()

/-- Rust `Scanner::scan_next_token`.  `Except.error ()` models the
`todo!("char not recognized")` fatal branch; `Except.ok none` models
end of input; otherwise the token and the advanced scanner are
returned. -/
def Scanner.scanNextToken (s0 : Scanner) : Except Unit (Option (Token × Scanner)) :=
  let s1 := s0.skipWhitespace
  let span_start := s1.current_peek_pos
  let c := s1.peek
  let s2 := (s1.bump).2
  if c = EOF_CHAR then .ok none
  else
    match scanTokenKind c span_start s2 with
    | .error _ => .error ()
    | .ok (token_kind, s3) =>
      .ok (some ({ kind := token_kind,
                   span := { start := span_start, stop := s3.current_peek_pos } }, s3))

/-- The collection loop of Rust `Scanner::scan_all_tokens`, made
structural by a fuel argument.  The fuel-zero arm is unreachable when
the fuel exceeds the stream length, because every produced token
strictly shrinks the stream (`Scanner.scanNextToken_length_lt`); see
`Scanner.scanAllTokensAux_fuel_irrelevant`. -/
def Scanner.scanAllTokensAux : Nat → Scanner → Except Unit (List Token)
  | 0, _ => .error ()
  | fuel+1, s =>
    match s.scanNextToken with
    | .error _ => .error ()
    | .ok none => .ok []
    | .ok (some (tok, s')) =>
      match Scanner.scanAllTokensAux fuel s' with
      | .error _ => .error ()
      | .ok toks => .ok (tok :: toks)

/-- Rust `Scanner::scan_all_tokens`: collect tokens until
`scan_next_token` returns `None`; a fatal scan error aborts the whole
scan. -/
def Scanner.scanAllTokens (s : Scanner) : Except Unit (List Token) :=
  Scanner.scanAllTokensAux (s.stream.length + 1) s

/-! ## AST, errors and context collaborators

parser.rs imports these from `crate::ast`, `crate::error` and
`crate::compiler_context`, which are not under src/; they are modelled
from the spec (sections 3, 4.3 and 6). -/

/-- Modelled from the spec: `Symbol` is "an interned handle for an
identifier string; equal text always yields an equal handle"; the text
itself is therefore a faithful model of the handle. -/
abbrev Symbol := List Char

/-- Modelled from the spec: `get_or_intern_str` of the context (section
4.3); with text-valued symbols interning is the identity. -/
def get_or_intern_str (text : List Char) : Symbol := text

/-- Modelled from the spec: `get_text_snippet(span)` of the context
(section 4.3), "the source text at byte offsets [start, end)". -/
def get_text_snippet (src : List Char) (sp : Span) : List Char :=
  takeBytes (dropBytes src sp.start) (sp.stop - sp.start)

/-- Modelled from the spec: `RangeKind` of `crate::ast` (section 3). -/
inductive RangeKind where
  | Inclusive | Exclusive
deriving Repr, DecidableEq

/-- Modelled from the spec: `Type` of `crate::ast` (section 3), renamed
`Ty` because `Type` is a Lean keyword. -/
inductive Ty where
  | I32 | Unit
deriving Repr, DecidableEq

/-- Modelled from the spec: `Param` of `crate::ast`; the spec fixes no
fields ("always empty today"), so an empty type keeps parameter lists
empty by construction. -/
inductive Param where
deriving DecidableEq

/-!
Modelled from the spec: the `Expr` tagged union and its component node
types of `crate::ast` (section 3).  Arena references are modelled as
direct structural nesting.
-/

mutual
inductive Expr where
  | Const (value : Int)
  | If (if_expr : IfExpr)
  | For (for_expr : ForExpr)
  | Break
  | Continue
  | Function (function : FunctionExpr)
  | Compound (compound : CompoundExpr)
  | BindDef (identifier : Symbol) (value : Expr)
  | BindRef (identifier : Symbol)
  | FnCall (identifier : Symbol)
  | Semi (expr : Expr)

inductive IfExpr where
  | mk (cond_expr : Expr) (true_branch : CompoundExpr)
       (else_if_branches : List ElseIfBranch) (final_branch : Option CompoundExpr)

inductive ElseIfBranch where
  | mk (cond_expr : Expr) (true_branch : CompoundExpr)

inductive ForExpr where
  | mk (iteration : Option ForIteration) (body : CompoundExpr)

inductive ForIteration where
  | Iterative (identifier : Symbol) (start_expr : Expr) (end_expr : Expr)
              (range_kind : RangeKind)
  | Conditional (cond_expr : Expr)

inductive FunctionExpr where
  | mk (return_type : Ty) (parameters : List Param) (body : CompoundExpr)

inductive CompoundExpr where
  | mk (exprs : List Expr)
end

/-- Modelled from the spec: `Decl` of `crate::ast` (section 3). -/
structure Decl where
  identifier : Symbol
  value : Expr

/-- Modelled from the spec: `Program` of `crate::ast` (section 3). -/
structure Program where
  decls : List Decl

/-- Modelled from the spec: `CompileError` of `crate::error` (section 6
lists exactly these two variants). -/
inductive CompileError where
  | ExpectedDeclaration
  | ExpectedButFound (expected : TokenKind) (found : Token)
deriving Repr, DecidableEq

/-- Modelled from the spec: `Diagnostic` of `crate::error`, "a non-empty
sequence of CompileError". -/
structure Diagnostic where
  compile_errors : List CompileError
deriving Repr, DecidableEq

/-- Digit-string value, most significant first. -/
def digitsToNat (cs : List Char) : Nat :=
  cs.foldl (fun acc c => acc * 10 + (c.toNat - 48)) 0

/-- Modelled from Rust std: `str::parse::<i32>` — an optional sign, then
at least one ASCII digit, value within `i32` range; anything else is a
parse error (`none`). -/
def rustParseI32 (text : List Char) : Option Int :=
  match text with
  | '+' :: rest =>
    if rest ≠ [] ∧ rest.all isAsciiDigit then
      if digitsToNat rest ≤ 2 ^ 31 - 1 then some (Int.ofNat (digitsToNat rest)) else none
    else none
  | '-' :: rest =>
    if rest ≠ [] ∧ rest.all isAsciiDigit then
      if digitsToNat rest ≤ 2 ^ 31 then some (-(Int.ofNat (digitsToNat rest))) else none
    else none
  | _ =>
    if text ≠ [] ∧ text.all isAsciiDigit then
      if digitsToNat text ≤ 2 ^ 31 - 1 then some (Int.ofNat (digitsToNat text)) else none
    else none

/-! ## Parser (parser.rs) -/

/-- Rust struct `Parser`: the context's source text (used through
`get_text_snippet`), the scanned token buffer, and the cursor index. -/
structure Parser where
  src : List Char
  tokens : List Token
  current_token_idx : Nat
deriving Repr, DecidableEq

/-- Rust `Parser::new`. -/
def Parser.new (tokens : List Token) (src : List Char) : Parser :=
  { src := src, tokens := tokens, current_token_idx := 0 }

/-- Rust `Parser::peek`: the current token, or the sentinel past the
buffer. -/
def Parser.peek (p : Parser) : Token :=
  p.tokens.getD p.current_token_idx Token.eof

/-- Rust `Parser::look_ahead`. -/
def Parser.look_ahead (p : Parser) (amount : Nat) : Token :=
  p.tokens.getD (p.current_token_idx + amount) Token.eof

/-- The index-advance half of Rust `Parser::consume`: moves forward by
one, never past the end of the buffer. -/
def Parser.advance (p : Parser) : Parser :=
  if p.current_token_idx < p.tokens.length then
    { p with current_token_idx := p.current_token_idx + 1 }
  else p

/-- Rust `Parser::consume`: returns the peeked token and advances the
index by at most one. -/
def Parser.consume (p : Parser) : Token × Parser :=
  (p.peek, p.advance)

/-- Rust `Parser::has_reached_eof`. -/
def Parser.has_reached_eof (p : Parser) : Bool :=
  p.tokens.length ≤ p.current_token_idx

/-- Rust `Parser::expect_and_consume`.  Defined in parser.rs (lines
317-328); it is the only producer of `ExpectedButFound`. -/
def Parser.expect_and_consume (p : Parser) (expected_kind : TokenKind) :
    Except CompileError Token × Parser :=
  let token := p.peek
  let p1 := p.advance
  if token.kind = expected_kind then (.ok token, p1)
  else (.error (CompileError.ExpectedButFound expected_kind token), p1)

/-- Rust `Parser::expect_and_consume_or_else`. -/
def Parser.expect_and_consume_or_else (p : Parser) (expected_kind : TokenKind)
    (f : Token → CompileError) : Except CompileError Token × Parser :=
  let token := p.peek
  let p1 := p.advance
  if token.kind = expected_kind then (.ok token, p1)
  else (.error (f token), p1)

/-- Outcome of one fallible parser routine: Rust `Ok`/`Err` (each
carrying the mutated parser, since consumed tokens stay consumed on
error), a fatal invariant violation (`debug_assert_eq!` failure or
`unwrap` on a failed integer parse), or exhaustion of the fuel that
makes the recursion structural. -/
inductive PRes (α : Type) where
  | ok (a : α) (p : Parser)
  | err (e : CompileError) (p : Parser)
  | panic
  | fuelOut

/-- Propagation of a fallible sub-parse, the Rust `?` operator and the
explicit `match`es that forward `Err` results: the continuation runs
only on success; errors, fatal outcomes and fuel exhaustion pass
through unchanged. -/
def PRes.bind : PRes α → (α → Parser → PRes β) → PRes β
  | .ok a p, f => f a p
  | .err e p, _ => .err e p
  | .panic, _ => .panic
  | .fuelOut, _ => .fuelOut

/-- Rust `Parser::parse_break_expr`. -/
def parse_break_expr (p : Parser) : PRes Expr :=
  .ok Expr.Break p

/-- Rust `Parser::parse_continue_expr`. -/
def parse_continue_expr (p : Parser) : PRes Expr :=
  .ok Expr.Continue p

mutual

/-- Rust `Parser::parse_statement_expr`: consume one token and dispatch
on its kind; the catch-all is the recoverable `ExpectedDeclaration`. -/
def parse_statement_expr (p0 : Parser) : Nat → PRes Expr
  | 0 => .fuelOut
  | fuel+1 =>
    let tok := p0.peek
    let p := p0.advance
    match tok.kind with
    | TokenKind.IntegerConstant =>
      match rustParseI32 (get_text_snippet p.src tok.span) with
      | some value => .ok (Expr.Const value) p
      | none => .panic
    | TokenKind.Keyword Keyword.If => parse_if_expr p fuel
    | TokenKind.Keyword Keyword.For => parse_for_expr p fuel
    | TokenKind.Keyword Keyword.Break => parse_break_expr p
    | TokenKind.Keyword Keyword.Continue => parse_continue_expr p
    | TokenKind.Open Delim.Paren => parse_function p fuel
    | TokenKind.Open Delim.Curly =>
      (parse_compound_expr tok p fuel).bind fun c p1 => .ok (Expr.Compound c) p1
    | TokenKind.Identifier =>
      if (p.peek).kind = TokenKind.ColonEqual then
        (parse_statement_expr p.advance fuel).bind fun value p2 =>
          .ok (Expr.BindDef (get_or_intern_str (get_text_snippet p2.src tok.span)) value) p2
      else if (p.peek).kind = TokenKind.Open Delim.Paren then
        let p1 := p.advance
        let close_paren_tok := p1.peek
        let p2 := p1.advance
        if close_paren_tok.kind = TokenKind.Closed Delim.Paren then
          .ok (Expr.FnCall (get_or_intern_str (get_text_snippet p2.src tok.span))) p2
        else .panic
      else
        .ok (Expr.BindRef (get_or_intern_str (get_text_snippet p.src tok.span))) p
    | _ => .err CompileError.ExpectedDeclaration p

/-- Rust `Parser::parse_expr`: a statement expression, wrapped in `Semi`
when a trailing semicolon is consumed. -/
def parse_expr (p0 : Parser) : Nat → PRes Expr
  | 0 => .fuelOut
  | fuel+1 =>
    (parse_statement_expr p0 fuel).bind fun stmt_expr p =>
      if (p.peek).kind = TokenKind.Semi then
        .ok (Expr.Semi stmt_expr) p.advance
      else
        .ok stmt_expr p

/-- Rust `Parser::parse_if_expr` (entered after the `if` keyword was
consumed): condition, mandatory braced branch, greedy else-if chain,
optional final else branch. -/
def parse_if_expr (p0 : Parser) : Nat → PRes Expr
  | 0 => .fuelOut
  | fuel+1 =>
    (parse_expr p0 fuel).bind fun cond_expr p =>
      let open_curly_tok := p.peek
      let p1 := p.advance
      if open_curly_tok.kind = TokenKind.Open Delim.Curly then
        (parse_compound_expr open_curly_tok p1 fuel).bind fun true_branch p2 =>
          (parse_else_if_branches p2 fuel).bind fun else_if_branches p3 =>
            if (p3.peek).kind = TokenKind.Keyword Keyword.Else then
              let p4 := p3.advance
              let open_curly_tok2 := p4.peek
              let p5 := p4.advance
              if open_curly_tok2.kind = TokenKind.Open Delim.Curly then
                (parse_compound_expr open_curly_tok2 p5 fuel).bind fun branch p6 =>
                  .ok (Expr.If (IfExpr.mk cond_expr true_branch else_if_branches
                        (some branch))) p6
              else .panic
            else
              .ok (Expr.If (IfExpr.mk cond_expr true_branch else_if_branches none)) p3
      else .panic

/-- The `while` loop of `parse_if_expr` that collects the else-if chain:
loops while the current token is `else` and the next is `if`. -/
def parse_else_if_branches (p0 : Parser) : Nat → PRes (List ElseIfBranch)
  | 0 => .fuelOut
  | fuel+1 =>
    if (p0.peek).kind = TokenKind.Keyword Keyword.Else
        ∧ (p0.look_ahead 1).kind = TokenKind.Keyword Keyword.If then
      (parse_expr (p0.advance.advance) fuel).bind fun cond_expr p3 =>
        let open_curly_tok := p3.peek
        let p4 := p3.advance
        if open_curly_tok.kind = TokenKind.Open Delim.Curly then
          (parse_compound_expr open_curly_tok p4 fuel).bind fun true_branch p5 =>
            (parse_else_if_branches p5 fuel).bind fun rest p6 =>
              .ok (ElseIfBranch.mk cond_expr true_branch :: rest) p6
        else .panic
    else
      .ok [] p0

/-- The iteration-header computation of Rust `parse_for_expr` (its
`let iteration = if ... else if ... else ...` block): an iterative
header when the lookahead sees `Identifier ':'`, a conditional header
when the next token is not `'{'`, no header otherwise.  Like the other
routines it spends one unit of fuel before its sub-parses. -/
def parse_for_iteration (p0 : Parser) : Nat → PRes (Option ForIteration)
  | 0 => .fuelOut
  | fuel+1 =>
    if (p0.peek).kind = TokenKind.Identifier
        ∧ (p0.look_ahead 1).kind = TokenKind.Colon then
      let ident_tok := p0.peek
      let p1 := p0.advance
      let identifier := get_or_intern_str (get_text_snippet p1.src ident_tok.span)
      let in_kw_tok := p1.peek
      let p2 := p1.advance
      if in_kw_tok.kind = TokenKind.Colon then
        (parse_expr p2 fuel).bind fun start_expr p3 =>
          let range_tok := p3.peek
          let p4 := p3.advance
          if range_tok.kind = TokenKind.PeriodPeriodEqual then
            (parse_expr p4 fuel).bind fun end_expr p5 =>
              .ok (some (ForIteration.Iterative identifier start_expr end_expr
                    RangeKind.Inclusive)) p5
          else if range_tok.kind = TokenKind.PeriodPeriod then
            (parse_expr p4 fuel).bind fun end_expr p5 =>
              .ok (some (ForIteration.Iterative identifier start_expr end_expr
                    RangeKind.Exclusive)) p5
          else .panic
      else .panic
    else if (p0.peek).kind ≠ TokenKind.Open Delim.Curly then
      (parse_expr p0 fuel).bind fun cond_expr p1 =>
        .ok (some (ForIteration.Conditional cond_expr)) p1
    else
      .ok none p0

/-- Rust `Parser::parse_for_expr` (entered after the `for` keyword):
first the iteration header, then the mandatory braced body. -/
def parse_for_expr (p0 : Parser) : Nat → PRes Expr
  | 0 => .fuelOut
  | fuel+1 =>
    (parse_for_iteration p0 fuel).bind fun iteration p =>
      let open_curly_tok := p.peek
      let p1 := p.advance
      if open_curly_tok.kind = TokenKind.Open Delim.Curly then
        (parse_compound_expr open_curly_tok p1 fuel).bind fun for_loop_body p2 =>
          .ok (Expr.For (ForExpr.mk iteration for_loop_body)) p2
      else .panic

/-- Rust `Parser::parse_function` (entered after the opening paren):
closing paren, optional `-> i32` return type, braced body. -/
def parse_function (p0 : Parser) : Nat → PRes Expr
  | 0 => .fuelOut
  | fuel+1 =>
    let closed_paren := p0.peek
    let p1 := p0.advance
    if closed_paren.kind = TokenKind.Closed Delim.Paren then
      let rt_res : PRes Ty :=
        if (p1.peek).kind = TokenKind.DashGreater then
          let p2 := p1.advance
          let type_tok := p2.peek
          let p3 := p2.advance
          if type_tok.kind = TokenKind.Keyword Keyword.I32 then .ok Ty.I32 p3
          else .panic
        else .ok Ty.Unit p1
      rt_res.bind fun return_type p2 =>
        let open_curly_tok := p2.peek
        let p3 := p2.advance
        if open_curly_tok.kind = TokenKind.Open Delim.Curly then
          (parse_compound_expr open_curly_tok p3 fuel).bind fun compound_expr p4 =>
            .ok (Expr.Function (FunctionExpr.mk return_type [] compound_expr)) p4
        else .panic
    else .panic

/-- Rust `Parser::parse_compound_expr`: asserts its argument is the
already-consumed opening curly, parses expressions until the closing
curly, and consumes that curly. -/
def parse_compound_expr (open_curly_tok : Token) (p0 : Parser) : Nat → PRes CompoundExpr
  | 0 => .fuelOut
  | fuel+1 =>
    if open_curly_tok.kind = TokenKind.Open Delim.Curly then
      (parse_compound_body p0 fuel).bind fun exprs p =>
        let closed_curly_tok := p.peek
        let p1 := p.advance
        if closed_curly_tok.kind = TokenKind.Closed Delim.Curly then
          .ok (CompoundExpr.mk exprs) p1
        else .panic
    else .panic

/-- The `while` loop of `parse_compound_expr`: parse expressions while
the current token is not the closing curly. -/
def parse_compound_body (p0 : Parser) : Nat → PRes (List Expr)
  | 0 => .fuelOut
  | fuel+1 =>
    if (p0.peek).kind ≠ TokenKind.Closed Delim.Curly then
      (parse_expr p0 fuel).bind fun expr p =>
        (parse_compound_body p fuel).bind fun exprs p1 =>
          .ok (expr :: exprs) p1
    else
      .ok [] p0

end

/-- Rust `Parser::parse_decl`: a mandatory identifier (failing it is the
recoverable `ExpectedDeclaration`), the asserted `::`, then the value
expression. -/
def parse_decl (p0 : Parser) (fuel : Nat) : PRes Decl :=
  match p0.expect_and_consume_or_else TokenKind.Identifier
      (fun _ => CompileError.ExpectedDeclaration) with
  | (.error e, p) => .err e p
  | (.ok ident_tok, p) =>
    let op := p.peek
    let p1 := p.advance
    if op.kind = TokenKind.ColonColon then
      (parse_statement_expr p1 fuel).bind fun expr p2 =>
        .ok { identifier := get_or_intern_str (get_text_snippet p2.src ident_tok.span),
              value := expr } p2
    else .panic

/-- Result of Rust `Parser::parse_program`, which returns
`Result<Program, Diagnostic>` (or dies on a fatal invariant
violation). -/
inductive ProgramResult where
  | ok (program : Program)
  | diag (diagnostic : Diagnostic)
  | panic
  | fuelOut

/-- The declaration loop of `parse_program`: until the cursor reaches
the end of the buffer, attempt declarations, collecting successes and
recoverable errors separately. -/
def parse_program_loop (p0 : Parser) : Nat → PRes (List Decl × List CompileError)
  | 0 => .fuelOut
  | fuel+1 =>
    if p0.has_reached_eof then
      .ok ([], []) p0
    else
      match parse_decl p0 fuel with
      | .ok decl p =>
        match parse_program_loop p fuel with
        | .ok (decls, compile_errors) p1 => .ok (decl :: decls, compile_errors) p1
        | .err e p1 => .err e p1
        | .panic => .panic
        | .fuelOut => .fuelOut
      | .err compile_error p =>
        match parse_program_loop p fuel with
        | .ok (decls, compile_errors) p1 => .ok (decls, compile_error :: compile_errors) p1
        | .err e p1 => .err e p1
        | .panic => .panic
        | .fuelOut => .fuelOut
      | .panic => .panic
      | .fuelOut => .fuelOut

/-- Rust `Parser::parse_program`: run the declaration loop; produce the
`Program` exactly when the collected error list is empty, otherwise the
`Diagnostic` made of that list. -/
def parse_program (p0 : Parser) (fuel : Nat) : ProgramResult :=
  match parse_program_loop p0 fuel with
  | .ok (decls, compile_errors) _ =>
    if compile_errors = [] then ProgramResult.ok { decls := decls }
    else ProgramResult.diag { compile_errors := compile_errors }
  | .err _ _ => ProgramResult.panic
  | .panic => ProgramResult.panic
  | .fuelOut => ProgramResult.fuelOut


/-! ## Specification predicates used by the theorems -/

/-- Scanner `b` is scanner `a` after consuming exactly the code points
`eaten`: the stream lost that prefix, the byte position advanced by its
UTF-8 length, and the source is unchanged. -/
def Eats (a b : Scanner) (eaten : List Char) : Prop :=
  a.stream = eaten ++ b.stream
    ∧ b.current_peek_pos = a.current_peek_pos + utf8Len eaten
    ∧ b.src = a.src

/-- A scanner state is well formed when its stream is a suffix of its
source and its byte position is the UTF-8 length of the consumed
prefix.  `Scanner.new` establishes this and every scan step preserves
it. -/
def WfScanner (s : Scanner) : Prop :=
  ∃ consumed, s.src = consumed ++ s.stream ∧ s.current_peek_pos = utf8Len consumed

/-- The spans of a token list are non-empty, ordered and non-overlapping,
starting at or after `lo`. -/
def SpanChain (lo : Nat) : List Token → Prop
  | [] => True
  | t :: ts => lo ≤ t.span.start ∧ t.span.start < t.span.stop ∧ SpanChain t.span.stop ts

/-- Parser state `p1` is reachable from `p0`: the cursor did not move
backwards and the token buffer and source are unchanged (`consume`
only ever increments the index). -/
def PChain (p0 p1 : Parser) : Prop :=
  p0.current_token_idx ≤ p1.current_token_idx
    ∧ p1.tokens = p0.tokens ∧ p1.src = p0.src

/-- Invariant of one parser routine relative to its entry state: the
final state is reachable, and any recoverable error it produces is
`ExpectedDeclaration` — the only `CompileError` the parser can build,
since `Parser.expect_and_consume`, the sole producer of
`ExpectedButFound`, has no callers. -/
def StepOk (p0 : Parser) : PRes α → Prop
  | .ok _ p1 => PChain p0 p1
  | .err e p1 => PChain p0 p1 ∧ e = CompileError.ExpectedDeclaration
  | .panic => True
  | .fuelOut => True

/-- Run-level consumption: starting from state `a`, each produced token
`t` comes from one `scanNextToken` step that consumed some whitespace
`ws` followed by the token's own text `eaten`, the token's span
covering exactly the `eaten` bytes; `texts` collects each token's
non-whitespace consumed text in order. -/
inductive Consumes : Scanner → List Token → List (List Char) → Prop
  | nil (a : Scanner) : Consumes a [] []
  | cons {a b : Scanner} {t : Token} {ts : List Token}
      {ws eaten : List Char} {texts : List (List Char)} :
      a.scanNextToken = .ok (some (t, b)) →
      Eats a b (ws ++ eaten) →
      (∀ c ∈ ws, isAsciiWhitespace c = true) →
      eaten ≠ [] →
      t.span.start = a.current_peek_pos + utf8Len ws →
      t.span.stop = t.span.start + utf8Len eaten →
      Consumes b ts texts →
      Consumes a (t :: ts) (eaten :: texts)

/-! ## Supporting lemmas -/

theorem Scanner.bump_src (s : Scanner) : ((s.bump).2).src = s.src := by
  unfold Scanner.bump
  dsimp only
  split <;> rfl

theorem Scanner.peek_ne_eof_of_stream {s : Scanner} {c : Char} {cs : List Char}
    (hs : s.stream = c :: cs) (hc : c ≠ EOF_CHAR) : s.peek ≠ EOF_CHAR := by
  simp [Scanner.peek, hs, hc]

theorem Scanner.stream_ne_nil_of_peek {s : Scanner} (h : s.peek ≠ EOF_CHAR) :
    s.stream ≠ [] := by
  intro hnil
  apply h
  simp [Scanner.peek, hnil]

theorem Scanner.bump_of_ne {s : Scanner} (h : s.peek ≠ EOF_CHAR) :
    (s.bump).2 = { s with stream := s.stream.tail,
                          current_peek_pos := s.current_peek_pos + (s.peek).utf8Size } := by
  unfold Scanner.bump
  simp [h]

theorem Scanner.bump_length_lt {s : Scanner} (h : s.peek ≠ EOF_CHAR) :
    ((s.bump).2).stream.length < s.stream.length := by
  rw [Scanner.bump_of_ne h]
  have hnil := Scanner.stream_ne_nil_of_peek h
  cases hs : s.stream with
  | nil => exact absurd hs hnil
  | cons c cs => simp [hs]

theorem Scanner.bump_length_le (s : Scanner) :
    ((s.bump).2).stream.length ≤ s.stream.length := by
  unfold Scanner.bump
  dsimp only
  split
  · cases hs : s.stream with
    | nil => simp [hs]
    | cons c cs => simp [hs]
  · exact Nat.le_refl _

/-- EOF_CHAR is in none of the scanner's character classes. -/
theorem eof_char_not_ws : isAsciiWhitespace EOF_CHAR = false := by decide

theorem ne_eof_of_ws {c : Char} (h : isAsciiWhitespace c = true) : c ≠ EOF_CHAR := by
  intro he
  rw [he, eof_char_not_ws] at h
  exact Bool.false_ne_true h

theorem eof_char_not_digit : isAsciiDigit EOF_CHAR = false := by decide

theorem ne_eof_of_digit {c : Char} (h : isAsciiDigit c = true) : c ≠ EOF_CHAR := by
  intro he
  rw [he, eof_char_not_digit] at h
  exact Bool.false_ne_true h

theorem eof_char_not_ident : isIdentCont EOF_CHAR = false := by decide

theorem ne_eof_of_ident {c : Char} (h : isIdentCont c = true) : c ≠ EOF_CHAR := by
  intro he
  rw [he, eof_char_not_ident] at h
  exact Bool.false_ne_true h

theorem skipWhitespaceLoop_length_le (cs : List Char) (pos : Nat) :
    (skipWhitespaceLoop cs pos).1.length ≤ cs.length := by
  induction cs generalizing pos with
  | nil => simp [skipWhitespaceLoop]
  | cons c cs ih =>
    simp only [skipWhitespaceLoop]
    split
    · exact Nat.le_trans (ih _) (Nat.le_succ _)
    · simp

theorem scanIntegerLoop_length_le (cs : List Char) (pos : Nat) :
    (scanIntegerLoop cs pos).1.length ≤ cs.length := by
  induction cs generalizing pos with
  | nil => simp [scanIntegerLoop]
  | cons c cs ih =>
    simp only [scanIntegerLoop]
    split
    · exact Nat.le_trans (ih _) (Nat.le_succ _)
    · simp

theorem scanIdentLoop_length_le (cs : List Char) (pos : Nat) :
    (scanIdentLoop cs pos).1.length ≤ cs.length := by
  induction cs generalizing pos with
  | nil => simp [scanIdentLoop]
  | cons c cs ih =>
    simp only [scanIdentLoop]
    split
    · exact Nat.le_trans (ih _) (Nat.le_succ _)
    · simp

theorem Scanner.skipWhitespace_length_le (s : Scanner) :
    ((s.skipWhitespace)).stream.length ≤ s.stream.length :=
  skipWhitespaceLoop_length_le s.stream s.current_peek_pos

theorem Scanner.scanIntegerConstant_length_le (s : Scanner) :
    ((s.scanIntegerConstant).2).stream.length ≤ s.stream.length :=
  scanIntegerLoop_length_le s.stream s.current_peek_pos

theorem Scanner.scanIdentifier_length_le (s : Scanner) (st : Nat) :
    ((s.scanIdentifier st).2).stream.length ≤ s.stream.length :=
  scanIdentLoop_length_le s.stream s.current_peek_pos

/-- Whatever arm of the dispatch fires, the resulting scanner's stream
is no longer than the input stream. -/
theorem scanTokenKind_length_le {c : Char} {span_start : Nat} {s2 : Scanner}
    {kind : TokenKind} {s3 : Scanner}
    (heq : scanTokenKind c span_start s2 = .ok (kind, s3)) :
    s3.stream.length ≤ s2.stream.length := by
  unfold scanTokenKind at heq
  split at heq
  · cases heq; exact Nat.le_refl _
  · split at heq
    · split at heq
      · cases heq; exact Scanner.bump_length_le s2
      · split at heq
        · cases heq; exact Scanner.bump_length_le s2
        · cases heq; exact Nat.le_refl _
    · split at heq
      · cases heq; exact Nat.le_refl _
      · split at heq
        · cases heq; exact Nat.le_refl _
        · split at heq
          · cases heq; exact Nat.le_refl _
          · split at heq
            · cases heq; exact Nat.le_refl _
            · split at heq
              · cases heq; exact Scanner.bump_length_le s2
              · split at heq
                · split at heq
                  · cases heq
                    calc ((((s2.bump).2).bump).2).stream.length
                        ≤ ((s2.bump).2).stream.length := Scanner.bump_length_le _
                      _ ≤ s2.stream.length := Scanner.bump_length_le _
                  · cases heq
                    exact Scanner.bump_length_le _
                · split at heq
                  · rw [Except.ok.injEq] at heq
                    have h3 : (s2.scanIntegerConstant).2 = s3 := by rw [heq]
                    rw [← h3]
                    exact Scanner.scanIntegerConstant_length_le _
                  · split at heq
                    · rw [Except.ok.injEq] at heq
                      have h3 : (s2.scanIdentifier span_start).2 = s3 := by rw [heq]
                      rw [← h3]
                      exact Scanner.scanIdentifier_length_le _ _
                    · exact absurd heq (by simp)

/-- Every token-producing step of the scanner strictly shrinks the
stream (the first `bump` consumed a real code point). -/
theorem Scanner.scanNextToken_length_lt {s : Scanner} {tok : Token} {s' : Scanner}
    (h : s.scanNextToken = .ok (some (tok, s'))) :
    s'.stream.length < s.stream.length := by
  unfold Scanner.scanNextToken at h
  set s1 := s.skipWhitespace with hs1
  have hws : s1.stream.length ≤ s.stream.length := Scanner.skipWhitespace_length_le s
  dsimp only at h
  by_cases hc : s1.peek = EOF_CHAR
  · rw [if_pos hc] at h
    exact absurd h (by simp)
  · rw [if_neg hc] at h
    have hbump : ((s1.bump).2).stream.length < s1.stream.length :=
      Scanner.bump_length_lt hc
    split at h
    · exact absurd h (by simp)
    · next token_kind s3 heq =>
      have hlen : s3.stream.length ≤ ((s1.bump).2).stream.length :=
        scanTokenKind_length_le heq
      have : s' = s3 := by
        cases h
        rfl
      rw [this]
      omega

/-- Any fuel larger than the stream length gives the same result, so the
fuel-zero arm of `scanAllTokensAux` is dead code and the fuelled loop is
a faithful model of the Rust `while let` loop. -/
theorem Scanner.scanAllTokensAux_fuel_irrelevant :
    ∀ (fuel1 fuel2 : Nat) (s : Scanner), s.stream.length < fuel1 →
      s.stream.length < fuel2 →
      Scanner.scanAllTokensAux fuel1 s = Scanner.scanAllTokensAux fuel2 s := by
  intro fuel1
  induction fuel1 with
  | zero => intro fuel2 s h1 h2; omega
  | succ f1 ih =>
    intro fuel2 s h1 h2
    cases fuel2 with
    | zero => omega
    | succ f2 =>
      simp only [Scanner.scanAllTokensAux]
      cases hn : s.scanNextToken with
      | error e => rfl
      | ok o =>
        cases o with
        | none => rfl
        | some ts =>
          obtain ⟨tok, s'⟩ := ts
          have hlt := Scanner.scanNextToken_length_lt hn
          dsimp only
          rw [ih f2 s' (by omega) (by omega)]

/-! ## Evaluation lemmas for the scanner on explicit streams -/

theorem Scanner.peek_cons (src : List Char) (c : Char) (cs : List Char) (pos : Nat) :
    Scanner.peek ⟨src, c :: cs, pos⟩ = c := rfl

theorem Scanner.bump_cons {c : Char} (src : List Char) (cs : List Char) (pos : Nat)
    (hc : c ≠ EOF_CHAR) :
    Scanner.bump ⟨src, c :: cs, pos⟩ = (c, ⟨src, cs, pos + c.utf8Size⟩) := by
  simp [Scanner.bump, Scanner.peek, hc]

theorem Scanner.skipWhitespace_cons_nws {c : Char} (src : List Char) (cs : List Char)
    (pos : Nat) (hws : isAsciiWhitespace c = false) :
    Scanner.skipWhitespace ⟨src, c :: cs, pos⟩ = ⟨src, c :: cs, pos⟩ := by
  simp [Scanner.skipWhitespace, skipWhitespaceLoop, hws]

/-- One scan step on a stream whose head is a non-whitespace code point:
skipping is the identity, the head is consumed, and the dispatch runs on
it. -/
theorem Scanner.scanNextToken_cons {c : Char} (src : List Char) (cs : List Char) (pos : Nat)
    (hws : isAsciiWhitespace c = false) (hc : c ≠ EOF_CHAR) :
    Scanner.scanNextToken ⟨src, c :: cs, pos⟩
      = match scanTokenKind c pos ⟨src, cs, pos + c.utf8Size⟩ with
        | .error _ => .error ()
        | .ok (token_kind, s3) =>
          .ok (some ({ kind := token_kind,
                       span := { start := pos, stop := s3.current_peek_pos } }, s3)) := by
  simp only [Scanner.scanNextToken]
  rw [Scanner.skipWhitespace_cons_nws src cs pos hws]
  rw [Scanner.bump_cons src cs pos hc]
  simp only [Scanner.peek_cons]
  rw [if_neg hc]

/-- A lone `'-'` whose follower is not `'>'` falls through every guarded
arm into the `todo!` catch-all. -/
theorem scanTokenKind_dash_err (src : List Char) (cs : List Char) (start q : Nat)
    (h : cs.headD EOF_CHAR ≠ '>') :
    scanTokenKind '-' start ⟨src, cs, q⟩ = .error () := by
  have hd : isAsciiDigit '-' = false := by decide
  have hi : isIdentStart '-' = false := by decide
  simp only [List.headD_eq_head?] at h
  simp [scanTokenKind, Scanner.peek, hd, hi, h]

/-- A lone `'.'` whose follower is not `'.'` falls through every guarded
arm into the `todo!` catch-all. -/
theorem scanTokenKind_period_err (src : List Char) (cs : List Char) (start q : Nat)
    (h : cs.headD EOF_CHAR ≠ '.') :
    scanTokenKind '.' start ⟨src, cs, q⟩ = .error () := by
  have hd : isAsciiDigit '.' = false := by decide
  have hi : isIdentStart '.' = false := by decide
  simp only [List.headD_eq_head?] at h
  simp [scanTokenKind, Scanner.peek, hd, hi, h]

/-! ## Character-class facts -/

theorem not_ws_of_identStart {c : Char} (h : isIdentStart c = true) :
    isAsciiWhitespace c = false := by
  cases hws : isAsciiWhitespace c with
  | false => rfl
  | true =>
    exfalso
    simp only [isIdentStart, Bool.or_eq_true, Bool.and_eq_true, decide_eq_true_eq] at h
    simp only [isAsciiWhitespace, Bool.or_eq_true, decide_eq_true_eq] at hws
    omega

theorem not_digit_of_identStart {c : Char} (h : isIdentStart c = true) :
    isAsciiDigit c = false := by
  cases hd : isAsciiDigit c with
  | false => rfl
  | true =>
    exfalso
    simp only [isIdentStart, Bool.or_eq_true, Bool.and_eq_true, decide_eq_true_eq] at h
    simp only [isAsciiDigit, Bool.and_eq_true, decide_eq_true_eq] at hd
    omega

theorem identStart_ne_char {c d : Char} (h : isIdentStart c = true)
    (hd : isIdentStart d = false) : c ≠ d := by
  intro he
  rw [he] at h
  rw [h] at hd
  exact absurd hd (by decide)

theorem ne_eof_of_identStart {c : Char} (h : isIdentStart c = true) : c ≠ EOF_CHAR :=
  identStart_ne_char h (by decide)

/-! ## Byte-slicing lemmas -/

theorem utf8Len_append (a b : List Char) : utf8Len (a ++ b) = utf8Len a + utf8Len b := by
  induction a with
  | nil => simp [utf8Len]
  | cons c cs ih => simp [utf8Len, ih]; omega

theorem utf8Len_pos {l : List Char} (h : l ≠ []) : 0 < utf8Len l := by
  cases l with
  | nil => exact absurd rfl h
  | cons c cs =>
    have := Char.utf8Size_pos c
    simp [utf8Len]
    omega

theorem dropBytes_append (a b : List Char) : dropBytes (a ++ b) (utf8Len a) = b := by
  induction a with
  | nil => simp [utf8Len, dropBytes]
  | cons c cs ih =>
    have hpos := Char.utf8Size_pos c
    have hlen : utf8Len (c :: cs) = c.utf8Size + utf8Len cs := rfl
    cases hn : utf8Len (c :: cs) with
    | zero => omega
    | succ n =>
      simp only [List.cons_append, dropBytes, hn]
      rw [if_pos (by omega)]
      have : n + 1 - c.utf8Size = utf8Len cs := by omega
      rw [this]
      exact ih

theorem takeBytes_append (a b : List Char) : takeBytes (a ++ b) (utf8Len a) = a := by
  induction a with
  | nil => simp [utf8Len, takeBytes]
  | cons c cs ih =>
    have hpos := Char.utf8Size_pos c
    have hlen : utf8Len (c :: cs) = c.utf8Size + utf8Len cs := rfl
    cases hn : utf8Len (c :: cs) with
    | zero => omega
    | succ n =>
      simp only [List.cons_append, takeBytes, hn]
      rw [if_pos (by omega)]
      have : n + 1 - c.utf8Size = utf8Len cs := by omega
      rw [this]
      exact congrArg (List.cons c) ih

/-! ## The identifier scan consumes exactly the maximal identifier run -/

theorem scanIdentLoop_consumes (run rest : List Char) (pos : Nat)
    (hrun : ∀ c ∈ run, isIdentCont c = true)
    (hrest : isIdentCont (rest.headD EOF_CHAR) = false) :
    scanIdentLoop (run ++ rest) pos = (rest, pos + utf8Len run) := by
  induction run generalizing pos with
  | nil =>
    cases rest with
    | nil => simp [scanIdentLoop, utf8Len]
    | cons r rs =>
      simp only [List.headD] at hrest
      simp [scanIdentLoop, hrest, utf8Len]
  | cons c cs ih =>
    have hc : isIdentCont c = true := hrun c (List.mem_cons_self c cs)
    simp only [List.cons_append, scanIdentLoop, hc, if_pos]
    have h2 := ih (pos + c.utf8Size) (fun d hd => hrun d (List.mem_cons_of_mem c hd))
    have h3 : pos + c.utf8Size + utf8Len cs = pos + utf8Len (c :: cs) := by
      simp [utf8Len]; omega
    rw [h3] at h2
    exact h2

/-- General shape of one scan step starting at a maximal identifier run:
exactly the run is consumed and its text is looked up in the keyword
table. -/
theorem scanNextToken_ident_run (pre run rest : List Char) (hne : run ≠ [])
    (hstart : isIdentStart (run.headD EOF_CHAR) = true)
    (hrun : ∀ c ∈ run, isIdentCont c = true)
    (hrest : isIdentCont (rest.headD EOF_CHAR) = false) :
    Scanner.scanNextToken ⟨pre ++ run ++ rest, run ++ rest, utf8Len pre⟩
      = .ok (some ({ kind := keywordOrIdent run,
                     span := { start := utf8Len pre, stop := utf8Len pre + utf8Len run } },
          ⟨pre ++ run ++ rest, rest, utf8Len pre + utf8Len run⟩)) := by
  cases run with
  | nil => exact absurd rfl hne
  | cons c cs =>
    simp only [List.headD] at hstart
    have hws := not_ws_of_identStart hstart
    have hceof := ne_eof_of_identStart hstart
    rw [List.cons_append, Scanner.scanNextToken_cons _ _ _ hws hceof]
    have harm : scanTokenKind c (utf8Len pre)
        ⟨pre ++ (c :: cs) ++ rest, cs ++ rest, utf8Len pre + c.utf8Size⟩
        = .ok (Scanner.scanIdentifier
            ⟨pre ++ (c :: cs) ++ rest, cs ++ rest, utf8Len pre + c.utf8Size⟩ (utf8Len pre)) := by
      have h1 : c ≠ ';' := identStart_ne_char hstart (by decide)
      have h2 : c ≠ ':' := identStart_ne_char hstart (by decide)
      have h3 : c ≠ '(' := identStart_ne_char hstart (by decide)
      have h4 : c ≠ ')' := identStart_ne_char hstart (by decide)
      have h5 : c ≠ '{' := identStart_ne_char hstart (by decide)
      have h6 : c ≠ '}' := identStart_ne_char hstart (by decide)
      have h7 : c ≠ '-' := identStart_ne_char hstart (by decide)
      have h8 : c ≠ '.' := identStart_ne_char hstart (by decide)
      have h9 := not_digit_of_identStart hstart
      simp [scanTokenKind, h1, h2, h3, h4, h5, h6, h7, h8, h9, hstart]
    rw [harm]
    have hloop : scanIdentLoop (cs ++ rest) (utf8Len pre + c.utf8Size)
        = (rest, utf8Len pre + utf8Len (c :: cs)) := by
      rw [scanIdentLoop_consumes cs rest _ (fun d hd => hrun d (List.mem_cons_of_mem c hd))
        hrest]
      have : utf8Len pre + c.utf8Size + utf8Len cs = utf8Len pre + utf8Len (c :: cs) := by
        simp [utf8Len]; omega
      rw [this]
    have hslice : takeBytes (dropBytes (pre ++ (c :: cs) ++ rest) (utf8Len pre))
        (utf8Len pre + utf8Len (c :: cs) - utf8Len pre) = c :: cs := by
      have hd : dropBytes (pre ++ ((c :: cs) ++ rest)) (utf8Len pre) = (c :: cs) ++ rest :=
        dropBytes_append pre ((c :: cs) ++ rest)
      rw [List.append_assoc, hd]
      have : utf8Len pre + utf8Len (c :: cs) - utf8Len pre = utf8Len (c :: cs) := by omega
      rw [this, takeBytes_append]
    simp only [Scanner.scanIdentifier, hloop, hslice]

/-! ## Claim C4: maximal munch for multi-character punctuation -/

/-- C4: the scanner obeys maximal munch on punctuation: at any position,
a stream continuing with `"::"` scans to a single `ColonColon` token
covering both bytes (never two `Colon`s), and one continuing with
`"..="` scans to a single `PeriodPeriodEqual` covering all three bytes;
in particular the whole inputs `"::"` and `"..="` scan to exactly those
single tokens. -/
theorem claim_c4_maximal_munch :
    (∀ (src cs : List Char) (pos : Nat),
      Scanner.scanNextToken ⟨src, ':' :: ':' :: cs, pos⟩
        = .ok (some ({ kind := TokenKind.ColonColon,
                       span := { start := pos, stop := pos + 2 } }, ⟨src, cs, pos + 2⟩)))
  ∧ (∀ (src cs : List Char) (pos : Nat),
      Scanner.scanNextToken ⟨src, '.' :: '.' :: '=' :: cs, pos⟩
        = .ok (some ({ kind := TokenKind.PeriodPeriodEqual,
                       span := { start := pos, stop := pos + 3 } }, ⟨src, cs, pos + 3⟩)))
  ∧ (Scanner.new "::".toList).scanAllTokens
      = .ok [{ kind := TokenKind.ColonColon, span := { start := 0, stop := 2 } }]
  ∧ (Scanner.new "..=".toList).scanAllTokens
      = .ok [{ kind := TokenKind.PeriodPeriodEqual, span := { start := 0, stop := 3 } }] := by
  refine ⟨?_, ?_, by rfl, by rfl⟩
  · intro src cs pos
    rw [Scanner.scanNextToken_cons _ _ _ (by decide) (by decide)]
    have harm : scanTokenKind ':' pos ⟨src, ':' :: cs, pos + (':').utf8Size⟩
        = .ok (TokenKind.ColonColon, ⟨src, cs, pos + (':').utf8Size + (':').utf8Size⟩) := by
      simp [scanTokenKind, Scanner.peek, Scanner.bump, EOF_CHAR]
    rw [harm]
    have : (':').utf8Size = 1 := by decide
    simp [this]
  · intro src cs pos
    rw [Scanner.scanNextToken_cons _ _ _ (by decide) (by decide)]
    have harm : scanTokenKind '.' pos ⟨src, '.' :: '=' :: cs, pos + ('.').utf8Size⟩
        = .ok (TokenKind.PeriodPeriodEqual,
            ⟨src, cs, pos + ('.').utf8Size + ('.').utf8Size + ('=').utf8Size⟩) := by
      simp [scanTokenKind, Scanner.peek, Scanner.bump, EOF_CHAR]
    rw [harm]
    have h1 : ('.').utf8Size = 1 := by decide
    have h2 : ('=').utf8Size = 1 := by decide
    simp [h1, h2]

/-! ## Claim C5: keyword vs identifier partition with maximal munch -/

/-- C5: for every maximal run of letters, digits and underscores that
starts with a letter or underscore, the scanner consumes exactly the
run and emits the keyword token exactly when the run's text is one of
the six keywords, and `Identifier` for every other run; in particular
`"if2"` scans as a single `Identifier` token. -/
theorem claim_c5_keyword_partition :
    (∀ (pre run rest : List Char), run ≠ [] →
      isIdentStart (run.headD EOF_CHAR) = true →
      (∀ c ∈ run, isIdentCont c = true) →
      isIdentCont (rest.headD EOF_CHAR) = false →
      Scanner.scanNextToken ⟨pre ++ run ++ rest, run ++ rest, utf8Len pre⟩
        = .ok (some (⟨if run = "i32".toList then TokenKind.Keyword Keyword.I32
               else if run = "if".toList then TokenKind.Keyword Keyword.If
               else if run = "else".toList then TokenKind.Keyword Keyword.Else
               else if run = "for".toList then TokenKind.Keyword Keyword.For
               else if run = "break".toList then TokenKind.Keyword Keyword.Break
               else if run = "continue".toList then TokenKind.Keyword Keyword.Continue
               else TokenKind.Identifier,
              ⟨utf8Len pre, utf8Len pre + utf8Len run⟩⟩,
          ⟨pre ++ run ++ rest, rest, utf8Len pre + utf8Len run⟩)))
  ∧ (Scanner.new "if2".toList).scanAllTokens
      = .ok [{ kind := TokenKind.Identifier, span := { start := 0, stop := 3 } }] := by
  refine ⟨?_, by rfl⟩
  intro pre run rest hne hstart hrun hrest
  exact scanNextToken_ident_run pre run rest hne hstart hrun hrest

/-- Witness for C5: the maximal run `"for"` (flanked by nothing) scans
to the `for` keyword token. -/
theorem claim_c5_witness :
    Scanner.scanNextToken ⟨"for".toList, "for".toList, 0⟩
      = .ok (some ({ kind := TokenKind.Keyword Keyword.For,
                     span := { start := 0, stop := 3 } }, ⟨"for".toList, [], 3⟩)) := by
  have h := claim_c5_keyword_partition.1 [] "for".toList [] (by decide) (by decide)
    (by decide) (by decide)
  exact h

/-! ## Claim C10: unguarded dash and period are fatal -/

/-- C10: a `'-'` not immediately followed by `'>'`, and a `'.'` not
immediately followed by `'.'`, take the scanner's fatal
unrecognized-character branch instead of producing any token (such as
`Dash`); the guarded arms fire exactly when the second character is
present. -/
theorem claim_c10_guarded_arms :
    (∀ (src cs : List Char) (pos : Nat), cs.headD EOF_CHAR ≠ '>' →
      Scanner.scanNextToken ⟨src, '-' :: cs, pos⟩ = .error ())
  ∧ (∀ (src cs : List Char) (pos : Nat), cs.headD EOF_CHAR ≠ '.' →
      Scanner.scanNextToken ⟨src, '.' :: cs, pos⟩ = .error ())
  ∧ (∀ (src cs : List Char) (pos : Nat),
      Scanner.scanNextToken ⟨src, '-' :: '>' :: cs, pos⟩
        = .ok (some ({ kind := TokenKind.DashGreater,
                       span := { start := pos, stop := pos + 2 } }, ⟨src, cs, pos + 2⟩)))
  ∧ (∀ (src cs : List Char) (pos : Nat), ∃ tok s',
      Scanner.scanNextToken ⟨src, '.' :: '.' :: cs, pos⟩ = .ok (some (tok, s'))
        ∧ (tok.kind = TokenKind.PeriodPeriod ∨ tok.kind = TokenKind.PeriodPeriodEqual)) := by
  refine ⟨?_, ?_, ?_, ?_⟩
  · intro src cs pos h
    rw [Scanner.scanNextToken_cons _ _ _ (by decide) (by decide)]
    rw [scanTokenKind_dash_err _ _ _ _ h]
  · intro src cs pos h
    rw [Scanner.scanNextToken_cons _ _ _ (by decide) (by decide)]
    rw [scanTokenKind_period_err _ _ _ _ h]
  · intro src cs pos
    rw [Scanner.scanNextToken_cons _ _ _ (by decide) (by decide)]
    have harm : scanTokenKind '-' pos ⟨src, '>' :: cs, pos + ('-').utf8Size⟩
        = .ok (TokenKind.DashGreater, ⟨src, cs, pos + ('-').utf8Size + ('>').utf8Size⟩) := by
      have hd : isAsciiDigit '-' = false := by decide
      have hi : isIdentStart '-' = false := by decide
      simp [scanTokenKind, Scanner.peek, Scanner.bump, EOF_CHAR, hd, hi]
    rw [harm]
    have h1 : ('-').utf8Size = 1 := by decide
    have h2 : ('>').utf8Size = 1 := by decide
    simp [h1, h2]
  · intro src cs pos
    rw [Scanner.scanNextToken_cons _ _ _ (by decide) (by decide)]
    by_cases he : cs.headD EOF_CHAR = '='
    · have harm : scanTokenKind '.' pos ⟨src, '.' :: cs, pos + ('.').utf8Size⟩
          = .ok (TokenKind.PeriodPeriodEqual,
            (((Scanner.bump ⟨src, cs, pos + ('.').utf8Size + ('.').utf8Size⟩)).2)) := by
        have hd : isAsciiDigit '.' = false := by decide
        have hi : isIdentStart '.' = false := by decide
        simp only [List.headD_eq_head?, EOF_CHAR] at he
        simp [scanTokenKind, Scanner.peek, Scanner.bump, EOF_CHAR, hd, hi, he]
      rw [harm]
      exact ⟨_, _, rfl, Or.inr rfl⟩
    · have harm : scanTokenKind '.' pos ⟨src, '.' :: cs, pos + ('.').utf8Size⟩
          = .ok (TokenKind.PeriodPeriod, ⟨src, cs, pos + ('.').utf8Size + ('.').utf8Size⟩) := by
        have hd : isAsciiDigit '.' = false := by decide
        have hi : isIdentStart '.' = false := by decide
        simp only [List.headD_eq_head?, EOF_CHAR] at he
        simp [scanTokenKind, Scanner.peek, Scanner.bump, EOF_CHAR, hd, hi, he]
      rw [harm]
      exact ⟨_, _, rfl, Or.inl rfl⟩

/-! ## Consumption bookkeeping for the span invariants -/

theorem utf8Len_cons (c : Char) (l : List Char) :
    utf8Len (c :: l) = c.utf8Size + utf8Len l := rfl

theorem eats_trans {a b c : Scanner} {e1 e2 : List Char}
    (h1 : Eats a b e1) (h2 : Eats b c e2) : Eats a c (e1 ++ e2) := by
  obtain ⟨hs1, hp1, hr1⟩ := h1
  obtain ⟨hs2, hp2, hr2⟩ := h2
  refine ⟨?_, ?_, ?_⟩
  · rw [hs1, hs2, List.append_assoc]
  · rw [hp2, hp1, utf8Len_append]
    omega
  · rw [hr2, hr1]

theorem Scanner.bump_eats {s : Scanner} (h : s.peek ≠ EOF_CHAR) :
    Eats s (s.bump).2 [s.peek] := by
  have hnil := Scanner.stream_ne_nil_of_peek h
  rw [Scanner.bump_of_ne h]
  cases hs : s.stream with
  | nil => exact absurd hs hnil
  | cons c cs =>
    have hpeek : s.peek = c := by simp [Scanner.peek, hs]
    refine ⟨?_, ?_, rfl⟩
    · simp [hs, hpeek]
    · simp [hpeek, utf8Len_cons, utf8Len]

theorem skipWhitespaceLoop_eats (cs : List Char) (pos : Nat) :
    ∃ ws, cs = ws ++ (skipWhitespaceLoop cs pos).1
      ∧ (skipWhitespaceLoop cs pos).2 = pos + utf8Len ws
      ∧ ∀ c ∈ ws, isAsciiWhitespace c = true := by
  induction cs generalizing pos with
  | nil =>
    exact ⟨[], by simp [skipWhitespaceLoop], by simp [skipWhitespaceLoop, utf8Len], by simp⟩
  | cons c cs ih =>
    by_cases hw : isAsciiWhitespace c
    · obtain ⟨ws, h1, h2, h3⟩ := ih (pos + c.utf8Size)
      refine ⟨c :: ws, ?_, ?_, ?_⟩
      · simp only [skipWhitespaceLoop, hw, if_pos, List.cons_append]
        exact congrArg (List.cons c) h1
      · simp only [skipWhitespaceLoop, hw, if_pos, utf8Len_cons]
        rw [h2]
        omega
      · intro d hd
        rcases List.mem_cons.mp hd with rfl | hd2
        · exact hw
        · exact h3 d hd2
    · refine ⟨[], ?_, ?_, by simp⟩
      · simp [skipWhitespaceLoop, hw]
      · simp [skipWhitespaceLoop, hw, utf8Len]

theorem Scanner.skipWhitespace_eats (s : Scanner) :
    ∃ ws, Eats s s.skipWhitespace ws ∧ ∀ c ∈ ws, isAsciiWhitespace c = true := by
  obtain ⟨ws, h1, h2, h3⟩ := skipWhitespaceLoop_eats s.stream s.current_peek_pos
  exact ⟨ws, ⟨h1, h2, rfl⟩, h3⟩

theorem scanIntegerLoop_eats (cs : List Char) (pos : Nat) :
    ∃ ds, cs = ds ++ (scanIntegerLoop cs pos).1
      ∧ (scanIntegerLoop cs pos).2 = pos + utf8Len ds := by
  induction cs generalizing pos with
  | nil => exact ⟨[], by simp [scanIntegerLoop], by simp [scanIntegerLoop, utf8Len]⟩
  | cons c cs ih =>
    by_cases hw : isAsciiDigit c
    · obtain ⟨ds, h1, h2⟩ := ih (pos + c.utf8Size)
      refine ⟨c :: ds, ?_, ?_⟩
      · simp only [scanIntegerLoop, hw, if_pos, List.cons_append]
        exact congrArg (List.cons c) h1
      · simp only [scanIntegerLoop, hw, if_pos, utf8Len_cons]
        rw [h2]
        omega
    · refine ⟨[], ?_, ?_⟩
      · simp [scanIntegerLoop, hw]
      · simp [scanIntegerLoop, hw, utf8Len]

theorem scanIdentLoop_eats (cs : List Char) (pos : Nat) :
    ∃ ds, cs = ds ++ (scanIdentLoop cs pos).1
      ∧ (scanIdentLoop cs pos).2 = pos + utf8Len ds := by
  induction cs generalizing pos with
  | nil => exact ⟨[], by simp [scanIdentLoop], by simp [scanIdentLoop, utf8Len]⟩
  | cons c cs ih =>
    by_cases hw : isIdentCont c
    · obtain ⟨ds, h1, h2⟩ := ih (pos + c.utf8Size)
      refine ⟨c :: ds, ?_, ?_⟩
      · simp only [scanIdentLoop, hw, if_pos, List.cons_append]
        exact congrArg (List.cons c) h1
      · simp only [scanIdentLoop, hw, if_pos, utf8Len_cons]
        rw [h2]
        omega
    · refine ⟨[], ?_, ?_⟩
      · simp [scanIdentLoop, hw]
      · simp [scanIdentLoop, hw, utf8Len]

theorem Scanner.scanIntegerConstant_eats (s : Scanner) :
    ∃ ds, Eats s ((s.scanIntegerConstant).2) ds := by
  obtain ⟨ds, h1, h2⟩ := scanIntegerLoop_eats s.stream s.current_peek_pos
  exact ⟨ds, h1, h2, rfl⟩

theorem Scanner.scanIdentifier_eats (s : Scanner) (st : Nat) :
    ∃ ds, Eats s ((s.scanIdentifier st).2) ds := by
  obtain ⟨ds, h1, h2⟩ := scanIdentLoop_eats s.stream s.current_peek_pos
  exact ⟨ds, h1, h2, rfl⟩

/-- Whatever arm of the dispatch fires, it only consumes code points
from the stream. -/
theorem scanTokenKind_eats {c : Char} {span_start : Nat} {s2 : Scanner}
    {kind : TokenKind} {s3 : Scanner}
    (heq : scanTokenKind c span_start s2 = .ok (kind, s3)) :
    ∃ e, Eats s2 s3 e := by
  have heats_refl : Eats s2 s2 [] := ⟨by simp, by simp [utf8Len], rfl⟩
  unfold scanTokenKind at heq
  split at heq
  · cases heq; exact ⟨[], heats_refl⟩
  · split at heq
    · split at heq
      · next hp =>
        cases heq
        exact ⟨[s2.peek], Scanner.bump_eats (by rw [hp]; decide)⟩
      · split at heq
        · next hp =>
          cases heq
          exact ⟨[s2.peek], Scanner.bump_eats (by rw [hp]; decide)⟩
        · cases heq; exact ⟨[], heats_refl⟩
    · split at heq
      · cases heq; exact ⟨[], heats_refl⟩
      · split at heq
        · cases heq; exact ⟨[], heats_refl⟩
        · split at heq
          · cases heq; exact ⟨[], heats_refl⟩
          · split at heq
            · cases heq; exact ⟨[], heats_refl⟩
            · split at heq
              · next hp =>
                cases heq
                exact ⟨[s2.peek], Scanner.bump_eats (by rw [hp.2]; decide)⟩
              · split at heq
                · next hp =>
                  split at heq
                  · next hp2 =>
                    cases heq
                    have e1 : Eats s2 ((s2.bump).2) [s2.peek] :=
                      Scanner.bump_eats (by rw [hp.2]; decide)
                    have e2 : Eats ((s2.bump).2) ((((s2.bump).2).bump).2)
                        [((s2.bump).2).peek] := Scanner.bump_eats (by rw [hp2]; decide)
                    exact ⟨_, eats_trans e1 e2⟩
                  · cases heq
                    exact ⟨[s2.peek], Scanner.bump_eats (by rw [hp.2]; decide)⟩
                · split at heq
                  · rw [Except.ok.injEq] at heq
                    have h3 : (s2.scanIntegerConstant).2 = s3 := by rw [heq]
                    obtain ⟨ds, hd⟩ := Scanner.scanIntegerConstant_eats s2
                    rw [h3] at hd
                    exact ⟨ds, hd⟩
                  · split at heq
                    · rw [Except.ok.injEq] at heq
                      have h3 : (s2.scanIdentifier span_start).2 = s3 := by rw [heq]
                      obtain ⟨ds, hd⟩ := Scanner.scanIdentifier_eats s2 span_start
                      rw [h3] at hd
                      exact ⟨ds, hd⟩
                    · exact absurd heq (by simp)

/-- Master per-token lemma: every produced token consumed some leading
whitespace `ws` and then a non-empty run `eaten`; its span covers
exactly the bytes of `eaten` and the scanner ends at the span's
stop position. -/
theorem Scanner.scanNextToken_eats {s : Scanner} {tok : Token} {s' : Scanner}
    (h : s.scanNextToken = .ok (some (tok, s'))) :
    ∃ ws eaten, Eats s s' (ws ++ eaten) ∧ eaten ≠ []
      ∧ tok.span.start = s.current_peek_pos + utf8Len ws
      ∧ tok.span.stop = tok.span.start + utf8Len eaten
      ∧ s'.current_peek_pos = tok.span.stop
      ∧ ∀ c ∈ ws, isAsciiWhitespace c = true := by
  unfold Scanner.scanNextToken at h
  set s1 := s.skipWhitespace with hs1
  obtain ⟨ws, hws, hwsall⟩ := Scanner.skipWhitespace_eats s
  rw [← hs1] at hws
  dsimp only at h
  by_cases hc : s1.peek = EOF_CHAR
  · rw [if_pos hc] at h
    exact absurd h (by simp)
  · rw [if_neg hc] at h
    have hbump : Eats s1 ((s1.bump).2) [s1.peek] := Scanner.bump_eats hc
    split at h
    · exact absurd h (by simp)
    · next token_kind s3 heq =>
      obtain ⟨e2, he2⟩ := scanTokenKind_eats heq
      have hall : Eats s s3 (ws ++ ([s1.peek] ++ e2)) :=
        eats_trans hws (eats_trans hbump he2)
      have htok : tok = ⟨token_kind, ⟨s1.current_peek_pos, s3.current_peek_pos⟩⟩
          ∧ s' = s3 := by
        cases h
        exact ⟨rfl, rfl⟩
      obtain ⟨htok1, htok2⟩ := htok
      refine ⟨ws, s1.peek :: e2, ?_, by simp, ?_, ?_, ?_, hwsall⟩
      · rw [htok2]
        exact hall
      · rw [htok1]
        exact hws.2.1
      · rw [htok1]
        obtain ⟨hb1, hb2, hb3⟩ := eats_trans hbump he2
        simp only
        rw [hb2]
        simp [utf8Len_cons, utf8Len_append, utf8Len]
      · rw [htok1, htok2]

theorem WfScanner.new (src : List Char) : WfScanner (Scanner.new src) :=
  ⟨[], rfl, rfl⟩

/-- A well-formed scanner stays well formed across a token scan, and the
token's span locates in the source exactly the consumed text, which
`get_text_snippet` reproduces. -/
theorem Scanner.scanNextToken_wf {s : Scanner} {tok : Token} {s' : Scanner}
    (h : s.scanNextToken = .ok (some (tok, s'))) (hw : WfScanner s) :
    WfScanner s'
      ∧ s.current_peek_pos ≤ tok.span.start
      ∧ tok.span.start < tok.span.stop
      ∧ tok.span.stop ≤ utf8Len s.src
      ∧ s'.current_peek_pos = tok.span.stop
      ∧ s'.src = s.src
      ∧ (∃ pre post, s.src = pre ++ get_text_snippet s.src tok.span ++ post
          ∧ utf8Len pre = tok.span.start
          ∧ tok.span.start + utf8Len (get_text_snippet s.src tok.span) = tok.span.stop) := by
  obtain ⟨ws, eaten, heats, hne, hstart, hstop, hend, hwsall⟩ := Scanner.scanNextToken_eats h
  obtain ⟨consumed, hc1, hc2⟩ := hw
  obtain ⟨he1, he2, he3⟩ := heats
  have hsrc2 : s.src = (consumed ++ ws) ++ (eaten ++ s'.stream) := by
    rw [hc1, he1]
    simp [List.append_assoc]
  have hpre : utf8Len (consumed ++ ws) = tok.span.start := by
    rw [utf8Len_append, ← hc2, hstart]
  have hsnip : get_text_snippet s.src tok.span = eaten := by
    unfold get_text_snippet
    have hsub : tok.span.stop - tok.span.start = utf8Len eaten := by
      rw [hstop]; omega
    rw [hsub, hsrc2, ← hpre, dropBytes_append, takeBytes_append]
  have hlen : utf8Len s.src
      = utf8Len consumed + utf8Len ws + (utf8Len eaten + utf8Len s'.stream) := by
    have e := congrArg utf8Len hsrc2
    simp only [utf8Len_append] at e
    exact e
  refine ⟨?_, ?_, ?_, ?_, hend, he3.trans ?_, ?_⟩
  · refine ⟨consumed ++ ws ++ eaten, ?_, ?_⟩
    · rw [he3, hsrc2]
      simp [List.append_assoc]
    · rw [hend, hstop, ← hpre]
      simp only [utf8Len_append]
  · rw [hstart]; omega
  · rw [hstop]
    have := utf8Len_pos hne
    omega
  · rw [hstop, ← hpre, hlen]
    simp only [utf8Len_append]
    omega
  · rfl
  · refine ⟨consumed ++ ws, s'.stream, ?_, hpre, ?_⟩
    · rw [hsnip, hsrc2]
      simp [List.append_assoc]
    · rw [hsnip, hstop]

/-- One scan step from a well-formed state consumes whitespace `ws`
then the token's text `eaten`, and `get_text_snippet` at the token's
span reproduces exactly `eaten`. -/
theorem Scanner.scanNextToken_snippet {s : Scanner} {tok : Token} {s' : Scanner}
    (h : s.scanNextToken = .ok (some (tok, s'))) (hw : WfScanner s) :
    ∃ ws eaten, Eats s s' (ws ++ eaten)
      ∧ (∀ c ∈ ws, isAsciiWhitespace c = true)
      ∧ eaten ≠ []
      ∧ tok.span.start = s.current_peek_pos + utf8Len ws
      ∧ tok.span.stop = tok.span.start + utf8Len eaten
      ∧ get_text_snippet s.src tok.span = eaten := by
  obtain ⟨ws, eaten, heats, hne, hstart, hstop, hend, hwsall⟩ :=
    Scanner.scanNextToken_eats h
  obtain ⟨consumed, hc1, hc2⟩ := hw
  obtain ⟨he1, he2, he3⟩ := heats
  have hsrc2 : s.src = (consumed ++ ws) ++ (eaten ++ s'.stream) := by
    rw [hc1, he1]
    simp [List.append_assoc]
  have hpre : utf8Len (consumed ++ ws) = tok.span.start := by
    rw [utf8Len_append, ← hc2, hstart]
  have hsnip : get_text_snippet s.src tok.span = eaten := by
    unfold get_text_snippet
    have hsub : tok.span.stop - tok.span.start = utf8Len eaten := by
      rw [hstop]; omega
    rw [hsub, hsrc2, ← hpre, dropBytes_append, takeBytes_append]
  exact ⟨ws, eaten, ⟨he1, he2, he3⟩, hwsall, hne, hstart, hstop, hsnip⟩

/-- The span invariants hold along the whole token list produced by the
fuelled collection loop. -/
theorem scanAllTokensAux_spec :
    ∀ (fuel : Nat) (s : Scanner) (toks : List Token), WfScanner s →
      Scanner.scanAllTokensAux fuel s = .ok toks →
      SpanChain s.current_peek_pos toks
        ∧ ∀ t ∈ toks,
            t.span.start < t.span.stop
            ∧ t.span.stop ≤ utf8Len s.src
            ∧ (∃ pre post, s.src = pre ++ get_text_snippet s.src t.span ++ post
                ∧ utf8Len pre = t.span.start
                ∧ t.span.start + utf8Len (get_text_snippet s.src t.span) = t.span.stop) := by
  intro fuel
  induction fuel with
  | zero => intro s toks hw h; exact absurd h (by simp [Scanner.scanAllTokensAux])
  | succ f ih =>
    intro s toks hw h
    simp only [Scanner.scanAllTokensAux] at h
    cases hn : s.scanNextToken with
    | error e => rw [hn] at h; exact absurd h (by simp)
    | ok o =>
      rw [hn] at h
      cases o with
      | none =>
        cases h
        exact ⟨trivial, by simp⟩
      | some ts =>
        obtain ⟨tok, s'⟩ := ts
        dsimp only at h
        cases hr : Scanner.scanAllTokensAux f s' with
        | error e => rw [hr] at h; exact absurd h (by simp)
        | ok toks' =>
          rw [hr] at h
          cases h
          obtain ⟨hw', hlo, hlt, hle, hpos, hsrc, hsnip⟩ :=
            Scanner.scanNextToken_wf hn hw
          obtain ⟨hchain, hprops⟩ := ih s' toks' hw' hr
          refine ⟨⟨hlo, hlt, ?_⟩, ?_⟩
          · rw [← hpos]
            exact hchain
          · intro t ht
            rcases List.mem_cons.mp ht with rfl | ht'
            · exact ⟨hlt, hle, hsnip⟩
            · have := hprops t ht'
              rw [hsrc] at this
              exact this

theorem spanChain_lt {lo : Nat} {ts : List Token} (h : SpanChain lo ts) :
    ∀ t ∈ ts, t.span.start < t.span.stop := by
  induction ts generalizing lo with
  | nil => intro t ht; cases ht
  | cons t ts ih =>
    obtain ⟨h1, h2, h3⟩ := h
    intro u hu
    rcases List.mem_cons.mp hu with rfl | hu'
    · exact h2
    · exact ih h3 u hu'

theorem spanChain_head_lo {lo : Nat} {t : Token} {ts : List Token}
    (h : SpanChain lo (t :: ts)) : lo ≤ t.span.start := h.1

theorem spanChain_adjacent {ts : List Token} :
    ∀ {lo : Nat}, SpanChain lo ts →
      ∀ (i : Nat) (h1 : i < ts.length) (h2 : i + 1 < ts.length),
        (ts.get ⟨i, h1⟩).span.stop ≤ (ts.get ⟨i + 1, h2⟩).span.start := by
  induction ts with
  | nil => intro lo h i h1 h2; exact absurd h1 (by simp)
  | cons t ts ih =>
    intro lo h i h1 h2
    obtain ⟨ha, hb, hc⟩ := h
    cases i with
    | zero =>
      cases ts with
      | nil => simp at h2
      | cons u us => exact hc.1
    | succ j =>
      exact ih hc j (by simpa using h1) (by simpa using h2)

/-- Along a successful fuelled collection run, the scanner consumes,
for each token in order, some whitespace then the token's text, and
every token's snippet is exactly that text. -/
theorem scanAllTokensAux_consumes :
    ∀ (fuel : Nat) (s : Scanner) (toks : List Token), WfScanner s →
      Scanner.scanAllTokensAux fuel s = .ok toks →
      ∃ texts, Consumes s toks texts
        ∧ List.Forall₂ (fun t text => get_text_snippet s.src t.span = text
            ∧ t.span.start < t.span.stop
            ∧ t.span.stop ≤ utf8Len s.src) toks texts := by
  intro fuel
  induction fuel with
  | zero => intro s toks hw h; exact absurd h (by simp [Scanner.scanAllTokensAux])
  | succ f ih =>
    intro s toks hw h
    simp only [Scanner.scanAllTokensAux] at h
    cases hn : s.scanNextToken with
    | error e => rw [hn] at h; exact absurd h (by simp)
    | ok o =>
      rw [hn] at h
      cases o with
      | none =>
        cases h
        exact ⟨[], Consumes.nil s, List.Forall₂.nil⟩
      | some ts =>
        obtain ⟨tok, s'⟩ := ts
        dsimp only at h
        cases hr : Scanner.scanAllTokensAux f s' with
        | error e => rw [hr] at h; exact absurd h (by simp)
        | ok toks' =>
          rw [hr] at h
          cases h
          obtain ⟨hw', hlo, hlt, hle, hpos, hsrc, hold⟩ := Scanner.scanNextToken_wf hn hw
          obtain ⟨ws, eaten, heats, hwsall, hne, hstart, hstop, hsnip⟩ :=
            Scanner.scanNextToken_snippet hn hw
          obtain ⟨texts2, hcon2, hfa2⟩ := ih s' toks' hw' hr
          refine ⟨eaten :: texts2, ?_, ?_⟩
          · exact Consumes.cons hn heats hwsall hne hstart hstop hcon2
          · refine List.Forall₂.cons ⟨hsnip, hlt, hle⟩ ?_
            rw [← hsrc]
            exact hfa2

/-! ## Claim C6: spans reproduce exactly the consumed text -/

/-- C6: for every token produced by a successful `scan_all_tokens`
run, the step that produced it consumed some whitespace followed by
the token's own text (`Consumes` records each token's non-whitespace
text in order), the source substring at byte offsets
`[span.start, span.stop)` — what `get_text_snippet` returns — is
exactly that consumed text with the whitespace excluded, and every
span satisfies `start ≤ stop ≤ len(source)`. -/
theorem claim_c6_span_roundtrip :
    ∀ (src : List Char) (toks : List Token),
      (Scanner.new src).scanAllTokens = .ok toks →
      ∃ texts, Consumes (Scanner.new src) toks texts
        ∧ List.Forall₂ (fun t text => get_text_snippet src t.span = text
            ∧ t.span.start ≤ t.span.stop
            ∧ t.span.stop ≤ utf8Len src) toks texts := by
  intro src toks h
  obtain ⟨texts, hcon, hfa⟩ := scanAllTokensAux_consumes
    ((Scanner.new src).stream.length + 1) (Scanner.new src) toks (WfScanner.new src) h
  refine ⟨texts, hcon, List.Forall₂.imp ?_ hfa⟩
  intro t text hp
  exact ⟨hp.1, Nat.le_of_lt hp.2.1, hp.2.2⟩

/-- Witness for C6: scanning `" x("` consumes the whitespace `" "`
then `"x"` for the identifier token and `"("` for the delimiter, and
each token's snippet reproduces its consumed text. -/
theorem claim_c6_witness :
    ∃ texts,
      Consumes (Scanner.new " x(".toList)
        [(⟨TokenKind.Identifier, ⟨1, 2⟩⟩ : Token), ⟨TokenKind.Open Delim.Paren, ⟨2, 3⟩⟩]
        texts
      ∧ List.Forall₂ (fun t text => get_text_snippet " x(".toList t.span = text
            ∧ t.span.start ≤ t.span.stop
            ∧ t.span.stop ≤ utf8Len " x(".toList)
          [(⟨TokenKind.Identifier, ⟨1, 2⟩⟩ : Token), ⟨TokenKind.Open Delim.Paren, ⟨2, 3⟩⟩]
          texts := by
  exact claim_c6_span_roundtrip " x(".toList
    [⟨TokenKind.Identifier, ⟨1, 2⟩⟩, ⟨TokenKind.Open Delim.Paren, ⟨2, 3⟩⟩] (by rfl)

/-! ## Claim C9: spans are non-empty, ordered and non-overlapping -/

/-- C9: every token of a successful scan has a non-empty span
(`start < stop`), and consecutive tokens have non-overlapping ordered
spans (`stop` of the earlier is at most `start` of the later). -/
theorem claim_c9_span_order :
    ∀ (src : List Char) (toks : List Token),
      (Scanner.new src).scanAllTokens = .ok toks →
      (∀ t ∈ toks, t.span.start < t.span.stop)
      ∧ ∀ (i : Nat) (h1 : i < toks.length) (h2 : i + 1 < toks.length),
          (toks.get ⟨i, h1⟩).span.stop ≤ (toks.get ⟨i + 1, h2⟩).span.start := by
  intro src toks h
  have hspec := scanAllTokensAux_spec ((Scanner.new src).stream.length + 1)
    (Scanner.new src) toks (WfScanner.new src) h
  exact ⟨spanChain_lt hspec.1, spanChain_adjacent hspec.1⟩

/-- Witness for C9: the scan of `"x :: 42"` has three non-empty
tokens. -/
theorem claim_c9_witness :
    (⟨TokenKind.ColonColon, ⟨2, 4⟩⟩ : Token).span.start
      < (⟨TokenKind.ColonColon, ⟨2, 4⟩⟩ : Token).span.stop := by
  exact (claim_c9_span_order "x :: 42".toList
    [⟨TokenKind.Identifier, ⟨0, 1⟩⟩, ⟨TokenKind.ColonColon, ⟨2, 4⟩⟩,
     ⟨TokenKind.IntegerConstant, ⟨5, 7⟩⟩] (by rfl)).1
    ⟨TokenKind.ColonColon, ⟨2, 4⟩⟩
    (List.mem_cons_of_mem _ (List.mem_cons_self _ _))

/-- Witness for C10: the one-character input `"-"` is fatal, the input
`"."` is fatal, and `"->"`, `".."` produce their two-character
tokens. -/
theorem claim_c10_witness :
    Scanner.scanNextToken ⟨['-'], ['-'], 0⟩ = .error ()
    ∧ Scanner.scanNextToken ⟨['.'], ['.'], 0⟩ = .error ()
    ∧ Scanner.scanNextToken ⟨['-', '>'], ['-', '>'], 0⟩
        = .ok (some ({ kind := TokenKind.DashGreater,
                       span := { start := 0, stop := 2 } }, ⟨['-', '>'], [], 2⟩))
    ∧ ∃ tok s', Scanner.scanNextToken ⟨['.', '.'], ['.', '.'], 0⟩ = .ok (some (tok, s'))
        ∧ (tok.kind = TokenKind.PeriodPeriod ∨ tok.kind = TokenKind.PeriodPeriodEqual) :=
  ⟨claim_c10_guarded_arms.1 ['-'] [] 0 (by decide),
   claim_c10_guarded_arms.2.1 ['.'] [] 0 (by decide),
   claim_c10_guarded_arms.2.2.1 ['-', '>'] [] 0,
   claim_c10_guarded_arms.2.2.2 ['.', '.'] [] 0⟩

/-! ## Parser cursor monotonicity and the error inventory -/

theorem Parser.advance_tokens (p : Parser) : p.advance.tokens = p.tokens := by
  unfold Parser.advance
  split <;> rfl

theorem Parser.advance_src (p : Parser) : p.advance.src = p.src := by
  unfold Parser.advance
  split <;> rfl

theorem Parser.advance_idx_le (p : Parser) :
    p.current_token_idx ≤ p.advance.current_token_idx := by
  unfold Parser.advance
  split <;> simp

theorem Parser.advance_idx_of_lt {p : Parser}
    (h : p.current_token_idx < p.tokens.length) :
    p.advance.current_token_idx = p.current_token_idx + 1 := by
  unfold Parser.advance
  rw [if_pos h]

theorem Parser.advance_of_ge {p : Parser}
    (h : p.tokens.length ≤ p.current_token_idx) : p.advance = p := by
  unfold Parser.advance
  rw [if_neg (by omega)]

theorem pchain_refl (p : Parser) : PChain p p := ⟨Nat.le_refl _, rfl, rfl⟩

theorem pchain_advance (p : Parser) : PChain p p.advance :=
  ⟨Parser.advance_idx_le p, Parser.advance_tokens p, Parser.advance_src p⟩

theorem pchain_trans {p0 p1 p2 : Parser} (h1 : PChain p0 p1) (h2 : PChain p1 p2) :
    PChain p0 p2 :=
  ⟨Nat.le_trans h1.1 h2.1, h2.2.1.trans h1.2.1, h2.2.2.trans h1.2.2⟩

theorem pchain_advance_right {p0 p1 : Parser} (h : PChain p0 p1) :
    PChain p0 p1.advance :=
  pchain_trans h (pchain_advance p1)

theorem stepOk_ok_of_chain {p0 p1 : Parser} {a : α} (h : PChain p0 p1) :
    StepOk p0 (.ok a p1) := h

theorem stepOk_err_of_chain {p0 p1 : Parser} (h : PChain p0 p1) :
    StepOk p0 ((.err CompileError.ExpectedDeclaration p1 : PRes α)) := ⟨h, rfl⟩

theorem stepOk_weaken {p0 p1 : Parser} {r : PRes α} (hpc : PChain p0 p1)
    (h : StepOk p1 r) : StepOk p0 r := by
  cases r with
  | ok a p2 => exact pchain_trans hpc h
  | err e p2 => exact ⟨pchain_trans hpc h.1, h.2⟩
  | panic => trivial
  | fuelOut => trivial

/-- Sequencing preserves the step invariant. -/
theorem StepOk.bind {α β : Type} {p0 : Parser} {r : PRes α} {f : α → Parser → PRes β}
    (h1 : StepOk p0 r) (h2 : ∀ a p1, StepOk p1 (f a p1)) :
    StepOk p0 (r.bind f) := by
  cases r with
  | ok a p1 =>
    simp only [PRes.bind]
    exact stepOk_weaken h1 (h2 a p1)
  | err e p1 => exact h1
  | panic => trivial
  | fuelOut => trivial

/-- Every routine of the mutual parser cluster satisfies the step
invariant, at every fuel.  For `parse_statement_expr` the invariant is
stated relative to `p0.advance`: its leading `consume` fires before any
dispatch, so even the result state of a failed dispatch sits at or
after the advanced cursor. -/
theorem cluster_stepOk : ∀ (fuel : Nat),
    (∀ p0, StepOk p0.advance (parse_statement_expr p0 fuel))
    ∧ (∀ p0, StepOk p0 (parse_expr p0 fuel))
    ∧ (∀ p0, StepOk p0 (parse_if_expr p0 fuel))
    ∧ (∀ p0, StepOk p0 (parse_else_if_branches p0 fuel))
    ∧ (∀ p0, StepOk p0 (parse_for_iteration p0 fuel))
    ∧ (∀ p0, StepOk p0 (parse_for_expr p0 fuel))
    ∧ (∀ p0, StepOk p0 (parse_function p0 fuel))
    ∧ (∀ tok p0, StepOk p0 (parse_compound_expr tok p0 fuel))
    ∧ (∀ p0, StepOk p0 (parse_compound_body p0 fuel)) := by
  intro fuel
  induction fuel with
  | zero =>
    exact ⟨fun _ => trivial, fun _ => trivial, fun _ => trivial, fun _ => trivial,
      fun _ => trivial, fun _ => trivial, fun _ => trivial, fun _ _ => trivial,
      fun _ => trivial⟩
  | succ f ih =>
    obtain ⟨ihs0, ihe, ihif, ihei, ihiter, ihfor, ihfn, ihce, ihcb⟩ := ih
    have ihs : ∀ p0, StepOk p0 (parse_statement_expr p0 f) := fun p0 =>
      stepOk_weaken (pchain_advance p0) (ihs0 p0)
    have hstmt : ∀ p0, StepOk p0.advance (parse_statement_expr p0 (f + 1)) := by
      intro p0
      simp only [parse_statement_expr]
      split
      · split
        · exact stepOk_ok_of_chain (pchain_refl _)
        · trivial
      · exact ihif _
      · exact ihfor _
      · exact stepOk_ok_of_chain (pchain_refl _)
      · exact stepOk_ok_of_chain (pchain_refl _)
      · exact ihfn _
      · exact StepOk.bind (ihce _ _)
          (fun c p1 => stepOk_ok_of_chain (pchain_refl _))
      · split
        · exact stepOk_weaken (pchain_advance _)
            (StepOk.bind (ihs _) (fun v p2 => stepOk_ok_of_chain (pchain_refl _)))
        · split
          · split
            · exact stepOk_ok_of_chain
                (pchain_advance_right (pchain_advance _))
            · trivial
          · exact stepOk_ok_of_chain (pchain_refl _)
      · exact stepOk_err_of_chain (pchain_refl _)
    have hexpr : ∀ p0, StepOk p0 (parse_expr p0 (f + 1)) := by
      intro p0
      simp only [parse_expr]
      refine StepOk.bind (ihs _) (fun a p1 => ?_)
      split
      · exact stepOk_ok_of_chain (pchain_advance p1)
      · exact stepOk_ok_of_chain (pchain_refl p1)
    have hif : ∀ p0, StepOk p0 (parse_if_expr p0 (f + 1)) := by
      intro p0
      simp only [parse_if_expr]
      refine StepOk.bind (ihe _) (fun cond p => ?_)
      split
      · refine stepOk_weaken (pchain_advance p)
          (StepOk.bind (ihce _ _) (fun tb p2 => ?_))
        refine StepOk.bind (ihei _) (fun eib p3 => ?_)
        split
        · split
          · exact stepOk_weaken (pchain_advance_right (pchain_advance p3))
              (StepOk.bind (ihce _ _) (fun br p6 => stepOk_ok_of_chain (pchain_refl _)))
          · trivial
        · exact stepOk_ok_of_chain (pchain_refl _)
      · trivial
    have hei : ∀ p0, StepOk p0 (parse_else_if_branches p0 (f + 1)) := by
      intro p0
      simp only [parse_else_if_branches]
      split
      · refine stepOk_weaken (pchain_advance_right (pchain_advance p0))
          (StepOk.bind (ihe _) (fun cond p3 => ?_))
        split
        · refine stepOk_weaken (pchain_advance p3)
            (StepOk.bind (ihce _ _) (fun tb p5 => ?_))
          exact StepOk.bind (ihei _) (fun rest p6 => stepOk_ok_of_chain (pchain_refl _))
        · trivial
      · exact stepOk_ok_of_chain (pchain_refl p0)
    have hiter : ∀ p0, StepOk p0 (parse_for_iteration p0 (f + 1)) := by
      intro p0
      unfold parse_for_iteration
      split
      · dsimp only
        split
        · refine stepOk_weaken (pchain_advance_right (pchain_advance p0))
            (StepOk.bind (ihe _) (fun st p3 => ?_))
          dsimp only
          split
          · exact stepOk_weaken (pchain_advance p3)
              (StepOk.bind (ihe _) (fun en p5 => stepOk_ok_of_chain (pchain_refl _)))
          · split
            · exact stepOk_weaken (pchain_advance p3)
                (StepOk.bind (ihe _) (fun en p5 => stepOk_ok_of_chain (pchain_refl _)))
            · trivial
        · trivial
      · split
        · exact StepOk.bind (ihe _) (fun c p1 => stepOk_ok_of_chain (pchain_refl _))
        · exact stepOk_ok_of_chain (pchain_refl p0)
    have hfor : ∀ p0, StepOk p0 (parse_for_expr p0 (f + 1)) := by
      intro p0
      simp only [parse_for_expr]
      refine StepOk.bind (ihiter _) (fun iter p => ?_)
      split
      · exact stepOk_weaken (pchain_advance p)
          (StepOk.bind (ihce _ _) (fun b p2 => stepOk_ok_of_chain (pchain_refl _)))
      · trivial
    have hfn : ∀ p0, StepOk p0 (parse_function p0 (f + 1)) := by
      intro p0
      simp only [parse_function]
      split
      · have hrt : StepOk p0.advance (
          if ((p0.advance).peek).kind = TokenKind.DashGreater then
            let p2 := (p0.advance).advance
            let type_tok := p2.peek
            let p3 := p2.advance
            if type_tok.kind = TokenKind.Keyword Keyword.I32 then (.ok Ty.I32 p3 : PRes Ty)
            else .panic
          else .ok Ty.Unit p0.advance) := by
          split
          · dsimp only
            split
            · exact stepOk_ok_of_chain
                (pchain_advance_right (pchain_advance p0.advance))
            · trivial
          · exact stepOk_ok_of_chain (pchain_refl _)
        refine stepOk_weaken (pchain_advance p0) (StepOk.bind hrt (fun rt p2 => ?_))
        split
        · exact stepOk_weaken (pchain_advance p2)
            (StepOk.bind (ihce _ _) (fun ce p4 => stepOk_ok_of_chain (pchain_refl _)))
        · trivial
      · trivial
    have hce : ∀ tok p0, StepOk p0 (parse_compound_expr tok p0 (f + 1)) := by
      intro tok p0
      simp only [parse_compound_expr]
      split
      · refine StepOk.bind (ihcb _) (fun es p => ?_)
        split
        · exact stepOk_ok_of_chain (pchain_advance p)
        · trivial
      · trivial
    have hcb : ∀ p0, StepOk p0 (parse_compound_body p0 (f + 1)) := by
      intro p0
      simp only [parse_compound_body]
      split
      · refine StepOk.bind (ihe _) (fun e p => ?_)
        exact StepOk.bind (ihcb _) (fun es p1 => stepOk_ok_of_chain (pchain_refl _))
      · exact stepOk_ok_of_chain (pchain_refl p0)
    exact ⟨hstmt, hexpr, hif, hei, hiter, hfor, hfn, hce, hcb⟩

theorem PRes.bind_eq_ok {α β : Type} {r : PRes α} {f : α → Parser → PRes β} {b : β}
    {p' : Parser} (h : r.bind f = .ok b p') :
    ∃ a p1, r = .ok a p1 ∧ f a p1 = .ok b p' := by
  cases r with
  | ok a p1 => exact ⟨a, p1, rfl, h⟩
  | err e p1 => exact absurd h (by simp [PRes.bind])
  | panic => exact absurd h (by simp [PRes.bind])
  | fuelOut => exact absurd h (by simp [PRes.bind])

theorem PRes.bind_ne_fuelOut {α β : Type} {r : PRes α} {f : α → Parser → PRes β}
    (h1 : r ≠ .fuelOut) (h2 : ∀ a p1, r = .ok a p1 → f a p1 ≠ .fuelOut) :
    r.bind f ≠ .fuelOut := by
  cases r with
  | ok a p1 => exact h2 a p1 rfl
  | err e p1 => simp [PRes.bind]
  | panic => simp [PRes.bind]
  | fuelOut => exact absurd rfl h1

/-- Past the end of the buffer, the sentinel token's kind matches no
dispatch arm, so `parse_statement_expr` fails recoverably without
moving the cursor. -/
theorem parse_statement_expr_at_eof {p : Parser}
    (h : p.tokens.length ≤ p.current_token_idx) (f : Nat) :
    parse_statement_expr p (f + 1) = .err CompileError.ExpectedDeclaration p := by
  have hpeek : p.peek = Token.eof := by
    unfold Parser.peek
    exact List.getD_eq_default _ _ h
  simp only [parse_statement_expr, hpeek, Token.eof]
  rw [Parser.advance_of_ge h]

theorem parse_expr_at_eof {p : Parser}
    (h : p.tokens.length ≤ p.current_token_idx) (f : Nat) :
    parse_expr p (f + 2) = .err CompileError.ExpectedDeclaration p := by
  simp only [parse_expr, parse_statement_expr_at_eof h, PRes.bind]

/-- A successful `parse_statement_expr` started strictly inside the
buffer advances the cursor by at least one. -/
theorem parse_statement_expr_ok_progress {p0 : Parser} {f : Nat} {a : Expr} {p' : Parser}
    (hlt : p0.current_token_idx < p0.tokens.length)
    (h : parse_statement_expr p0 f = .ok a p') :
    p0.current_token_idx + 1 ≤ p'.current_token_idx := by
  have hstep := (cluster_stepOk f).1 p0
  rw [h] at hstep
  have := hstep.1
  rw [Parser.advance_idx_of_lt hlt] at this
  exact this

theorem parse_expr_ok_progress {p0 : Parser} {f : Nat} {a : Expr} {p' : Parser}
    (hlt : p0.current_token_idx < p0.tokens.length)
    (h : parse_expr p0 f = .ok a p') :
    p0.current_token_idx + 1 ≤ p'.current_token_idx := by
  cases f with
  | zero => exact absurd h (by simp [parse_expr])
  | succ f =>
    simp only [parse_expr] at h
    obtain ⟨b, p1, h1, h2⟩ := PRes.bind_eq_ok h
    have hp1 := parse_statement_expr_ok_progress hlt h1
    by_cases hsemi : (p1.peek).kind = TokenKind.Semi
    · rw [if_pos hsemi] at h2
      cases h2
      have := Parser.advance_idx_le p1
      omega
    · rw [if_neg hsemi] at h2
      cases h2
      exact hp1

/-! ## Fuel sufficiency: the parser terminates -/

theorem Parser.idx_lt_of_peek_ne_eof {p : Parser}
    (h : (p.peek).kind ≠ TokenKind.Eof) :
    p.current_token_idx < p.tokens.length := by
  by_contra hge
  push_neg at hge
  apply h
  unfold Parser.peek
  rw [List.getD_eq_default _ _ hge]
  rfl

theorem Parser.idx1_lt_of_look1_ne_eof {p : Parser}
    (h : ((p.look_ahead 1)).kind ≠ TokenKind.Eof) :
    p.current_token_idx + 1 < p.tokens.length := by
  by_contra hge
  push_neg at hge
  apply h
  unfold Parser.look_ahead
  rw [List.getD_eq_default _ _ hge]
  rfl

theorem measure_le_of_chain {p0 p1 : Parser} (h : PChain p0 p1) :
    p1.tokens.length - p1.current_token_idx
      ≤ p0.tokens.length - p0.current_token_idx := by
  obtain ⟨h1, h2, h3⟩ := h
  rw [h2]
  omega

theorem measure_advance_le (p : Parser) :
    p.advance.tokens.length - p.advance.current_token_idx
      ≤ p.tokens.length - p.current_token_idx :=
  measure_le_of_chain (pchain_advance p)

theorem measure_advance_of_lt {p : Parser}
    (h : p.current_token_idx < p.tokens.length) :
    p.advance.tokens.length - p.advance.current_token_idx + 1
      ≤ p.tokens.length - p.current_token_idx := by
  rw [Parser.advance_tokens, Parser.advance_idx_of_lt h]
  omega

/-- With fuel at least linear in the number of unread tokens, no routine
of the cluster runs out: the recursion always terminates.  The bounds
`4n + r` reflect the longest chain of mutual calls that does not consume
a token (statement → compound → body → expression). -/
theorem cluster_sufficient : ∀ (n : Nat) (p : Parser),
    p.tokens.length - p.current_token_idx ≤ n →
    (∀ fuel, 4 * n + 1 ≤ fuel → parse_statement_expr p fuel ≠ .fuelOut)
    ∧ (∀ fuel, 4 * n + 2 ≤ fuel → parse_expr p fuel ≠ .fuelOut)
    ∧ (∀ fuel, 4 * n + 3 ≤ fuel → parse_for_iteration p fuel ≠ .fuelOut)
    ∧ (∀ fuel, 4 * n + 3 ≤ fuel → parse_compound_body p fuel ≠ .fuelOut)
    ∧ (∀ fuel tok, 4 * n + 4 ≤ fuel → parse_compound_expr tok p fuel ≠ .fuelOut)
    ∧ (∀ fuel, 4 * n + 4 ≤ fuel → parse_else_if_branches p fuel ≠ .fuelOut)
    ∧ (∀ fuel, 4 * n + 4 ≤ fuel → parse_if_expr p fuel ≠ .fuelOut)
    ∧ (∀ fuel, 4 * n + 4 ≤ fuel → parse_for_expr p fuel ≠ .fuelOut)
    ∧ (∀ fuel, 4 * n + 4 ≤ fuel → parse_function p fuel ≠ .fuelOut) := by
  intro n
  induction n using Nat.strong_induction_on with
  | _ n ih =>
  intro p hm
  have hstmt : ∀ fuel, 4 * n + 1 ≤ fuel → parse_statement_expr p fuel ≠ .fuelOut := by
    intro fuel hf
    cases fuel with
    | zero => omega
    | succ g =>
      simp only [parse_statement_expr]
      split
      · split <;> simp
      · rename_i heq
        have hlt := Parser.idx_lt_of_peek_ne_eof (p := p) (by rw [heq]; decide)
        have hdrop := measure_advance_of_lt hlt
        exact (ih (n - 1) (by omega) p.advance (by omega)).2.2.2.2.2.2.1 g (by omega)
      · rename_i heq
        have hlt := Parser.idx_lt_of_peek_ne_eof (p := p) (by rw [heq]; decide)
        have hdrop := measure_advance_of_lt hlt
        exact (ih (n - 1) (by omega) p.advance (by omega)).2.2.2.2.2.2.2.1 g (by omega)
      · simp [parse_break_expr]
      · simp [parse_continue_expr]
      · rename_i heq
        have hlt := Parser.idx_lt_of_peek_ne_eof (p := p) (by rw [heq]; decide)
        have hdrop := measure_advance_of_lt hlt
        exact (ih (n - 1) (by omega) p.advance (by omega)).2.2.2.2.2.2.2.2 g (by omega)
      · rename_i heq
        have hlt := Parser.idx_lt_of_peek_ne_eof (p := p) (by rw [heq]; decide)
        have hdrop := measure_advance_of_lt hlt
        refine PRes.bind_ne_fuelOut
          (((ih (n - 1) (by omega) p.advance (by omega)).2.2.2.2.1) g _ (by omega)) ?_
        intro a p1 _
        simp
      · rename_i heq
        have hlt := Parser.idx_lt_of_peek_ne_eof (p := p) (by rw [heq]; decide)
        have hdrop := measure_advance_of_lt hlt
        split
        · refine PRes.bind_ne_fuelOut ?_ (by intro a p1 _; simp)
          have hd2 := measure_advance_le p.advance
          exact (ih (n - 1) (by omega) p.advance.advance (by omega)).1 g (by omega)
        · split
          · split <;> simp
          · simp
      · simp
  have hexpr : ∀ fuel, 4 * n + 2 ≤ fuel → parse_expr p fuel ≠ .fuelOut := by
    intro fuel hf
    cases fuel with
    | zero => omega
    | succ g =>
      simp only [parse_expr]
      refine PRes.bind_ne_fuelOut (hstmt g (by omega)) ?_
      intro a p1 _
      split <;> simp
  have hiter : ∀ fuel, 4 * n + 3 ≤ fuel → parse_for_iteration p fuel ≠ .fuelOut := by
    intro fuel hf
    cases fuel with
    | zero => omega
    | succ g =>
      simp only [parse_for_iteration]
      split
      · rename_i hcond
        obtain ⟨hid, hcol⟩ := hcond
        have hlt1 : p.current_token_idx + 1 < p.tokens.length :=
          Parser.idx1_lt_of_look1_ne_eof (by rw [hcol]; decide)
        have hlt : p.current_token_idx < p.tokens.length := by omega
        try dsimp only
        split
        · have hdrop := measure_advance_of_lt hlt
          have hlt2 : p.advance.current_token_idx < p.advance.tokens.length := by
            rw [Parser.advance_tokens, Parser.advance_idx_of_lt hlt]
            exact hlt1
          have hdrop2 := measure_advance_of_lt hlt2
          refine PRes.bind_ne_fuelOut
            ((ih (n - 1) (by omega) p.advance.advance (by omega)).2.1 g (by omega)) ?_
          intro st p3 hok
          have hstep := (cluster_stepOk g).2.1 p.advance.advance
          rw [hok] at hstep
          have hme3 := measure_le_of_chain hstep
          have hme4 := measure_advance_le p3
          try dsimp only
          split
          · refine PRes.bind_ne_fuelOut ?_ (by intro a q _; simp)
            exact (ih (n - 1) (by omega) p3.advance (by omega)).2.1 g (by omega)
          · split
            · refine PRes.bind_ne_fuelOut ?_ (by intro a q _; simp)
              exact (ih (n - 1) (by omega) p3.advance (by omega)).2.1 g (by omega)
            · simp
        · simp
      · split
        · refine PRes.bind_ne_fuelOut (hexpr g (by omega)) ?_
          intro a q _
          simp
        · simp
  have hbody : ∀ fuel, 4 * n + 3 ≤ fuel → parse_compound_body p fuel ≠ .fuelOut := by
    intro fuel hf
    cases fuel with
    | zero => omega
    | succ g =>
      simp only [parse_compound_body]
      split
      · refine PRes.bind_ne_fuelOut (hexpr g (by omega)) ?_
        intro a p1 hok
        by_cases hlt : p.current_token_idx < p.tokens.length
        · have hprog := parse_expr_ok_progress hlt hok
          have hstep := (cluster_stepOk g).2.1 p
          rw [hok] at hstep
          have htoks : p1.tokens = p.tokens := hstep.2.1
          refine PRes.bind_ne_fuelOut ?_ (by intro b q _; simp)
          refine (ih (n - 1) (by omega) p1 ?_).2.2.2.1 g (by omega)
          rw [htoks]
          omega
        · exfalso
          push_neg at hlt
          have : parse_expr p g = .err CompileError.ExpectedDeclaration p := by
            have h2 : 2 ≤ g := by omega
            obtain ⟨g2, rfl⟩ : ∃ g2, g = g2 + 2 := ⟨g - 2, by omega⟩
            exact parse_expr_at_eof hlt g2
          rw [this] at hok
          exact absurd hok (by simp)
      · simp
  have hcompound : ∀ fuel tok, 4 * n + 4 ≤ fuel →
      parse_compound_expr tok p fuel ≠ .fuelOut := by
    intro fuel tok hf
    cases fuel with
    | zero => omega
    | succ g =>
      simp only [parse_compound_expr]
      split
      · refine PRes.bind_ne_fuelOut (hbody g (by omega)) ?_
        intro a p1 _
        split <;> simp
      · simp
  have hei : ∀ fuel, 4 * n + 4 ≤ fuel → parse_else_if_branches p fuel ≠ .fuelOut := by
    intro fuel hf
    cases fuel with
    | zero => omega
    | succ g =>
      simp only [parse_else_if_branches]
      split
      · rename_i hcond
        obtain ⟨hel, hif2⟩ := hcond
        have hlt1 : p.current_token_idx + 1 < p.tokens.length :=
          Parser.idx1_lt_of_look1_ne_eof (by rw [hif2]; decide)
        have hlt : p.current_token_idx < p.tokens.length := by omega
        have hdrop := measure_advance_of_lt hlt
        have hlt2 : p.advance.current_token_idx < p.advance.tokens.length := by
          rw [Parser.advance_tokens, Parser.advance_idx_of_lt hlt]
          exact hlt1
        have hdrop2 := measure_advance_of_lt hlt2
        refine PRes.bind_ne_fuelOut
          ((ih (n - 1) (by omega) p.advance.advance (by omega)).2.1 g (by omega)) ?_
        intro cond p3 hok
        have hstep := (cluster_stepOk g).2.1 p.advance.advance
        rw [hok] at hstep
        have hme3 := measure_le_of_chain hstep
        have hme4 := measure_advance_le p3
        try dsimp only
        split
        · refine PRes.bind_ne_fuelOut
            ((ih (n - 1) (by omega) p3.advance (by omega)).2.2.2.2.1 g _ (by omega)) ?_
          intro tb p5 hok2
          have hstep2 := (cluster_stepOk g).2.2.2.2.2.2.2.1 (p3.peek) p3.advance
          rw [hok2] at hstep2
          have hme5 := measure_le_of_chain hstep2
          refine PRes.bind_ne_fuelOut
            ((ih (n - 1) (by omega) p5 (by omega)).2.2.2.2.2.1 g (by omega)) ?_
          intro rest p6 _
          simp
        · simp
      · simp
  have hif : ∀ fuel, 4 * n + 4 ≤ fuel → parse_if_expr p fuel ≠ .fuelOut := by
    intro fuel hf
    cases fuel with
    | zero => omega
    | succ g =>
      simp only [parse_if_expr]
      refine PRes.bind_ne_fuelOut (hexpr g (by omega)) ?_
      intro cond p1 hok
      have hstep := (cluster_stepOk g).2.1 p
      rw [hok] at hstep
      have hme1 := measure_le_of_chain hstep
      try dsimp only
      split
      · rename_i heq
        have hlt1 : p1.current_token_idx < p1.tokens.length :=
          Parser.idx_lt_of_peek_ne_eof (by rw [heq]; decide)
        have hlt : p.current_token_idx < p.tokens.length := by
          have := hstep.1
          have := hstep.2.1
          omega
        have hdropp := measure_advance_of_lt hlt
        have hdrop1 := measure_advance_of_lt hlt1
        refine PRes.bind_ne_fuelOut
          ((ih (n - 1) (by omega) p1.advance (by omega)).2.2.2.2.1 g _ (by omega)) ?_
        intro tb p2 hok2
        have hstep2 := (cluster_stepOk g).2.2.2.2.2.2.2.1 (p1.peek) p1.advance
        rw [hok2] at hstep2
        have hme2 := measure_le_of_chain hstep2
        refine PRes.bind_ne_fuelOut
          ((ih (n - 1) (by omega) p2 (by omega)).2.2.2.2.2.1 g (by omega)) ?_
        intro eib p3 hok3
        have hstep3 := (cluster_stepOk g).2.2.2.1 p2
        rw [hok3] at hstep3
        have hme3 := measure_le_of_chain hstep3
        try dsimp only
        split
        · split
          · rename_i heq2
            have hlt4 : p3.advance.current_token_idx < p3.advance.tokens.length :=
              Parser.idx_lt_of_peek_ne_eof (by rw [heq2]; decide)
            have hme4 := measure_advance_le p3
            have hdrop4 := measure_advance_of_lt hlt4
            refine PRes.bind_ne_fuelOut
              ((ih (n - 1) (by omega) p3.advance.advance (by omega)).2.2.2.2.1
                g _ (by omega)) ?_
            intro br p6 _
            simp
          · simp
        · simp
      · simp
  have hfor : ∀ fuel, 4 * n + 4 ≤ fuel → parse_for_expr p fuel ≠ .fuelOut := by
    intro fuel hf
    cases fuel with
    | zero => omega
    | succ g =>
      simp only [parse_for_expr]
      refine PRes.bind_ne_fuelOut (hiter g (by omega)) ?_
      intro iter p1 hok
      have hstep := (cluster_stepOk g).2.2.2.2.1 p
      rw [hok] at hstep
      have hme1 := measure_le_of_chain hstep
      try dsimp only
      split
      · rename_i heq
        have hlt1 : p1.current_token_idx < p1.tokens.length :=
          Parser.idx_lt_of_peek_ne_eof (by rw [heq]; decide)
        have hlt : p.current_token_idx < p.tokens.length := by
          have := hstep.1
          have := hstep.2.1
          omega
        have hdropp := measure_advance_of_lt hlt
        have hdrop1 := measure_advance_of_lt hlt1
        refine PRes.bind_ne_fuelOut
          ((ih (n - 1) (by omega) p1.advance (by omega)).2.2.2.2.1 g _ (by omega)) ?_
        intro b p2 _
        simp
      · simp
  have hfn : ∀ fuel, 4 * n + 4 ≤ fuel → parse_function p fuel ≠ .fuelOut := by
    intro fuel hf
    cases fuel with
    | zero => omega
    | succ g =>
      simp only [parse_function]
      split
      · rename_i heq
        have hlt := Parser.idx_lt_of_peek_ne_eof (p := p) (by rw [heq]; decide)
        have hdrop := measure_advance_of_lt hlt
        have hrtStep : StepOk p.advance (
            if ((p.advance).peek).kind = TokenKind.DashGreater then
              if (((p.advance).advance).peek).kind = TokenKind.Keyword Keyword.I32 then
                (.ok Ty.I32 ((p.advance).advance).advance : PRes Ty)
              else .panic
            else .ok Ty.Unit p.advance) := by
          split
          · split
            · exact stepOk_ok_of_chain
                (pchain_advance_right (pchain_advance p.advance))
            · trivial
          · exact stepOk_ok_of_chain (pchain_refl _)
        refine PRes.bind_ne_fuelOut ?_ ?_
        · split
          · split <;> simp
          · simp
        · intro rt p2 hok
          rw [hok] at hrtStep
          have hme2 := measure_le_of_chain hrtStep
          try dsimp only
          split
          · rename_i heq2
            have hlt2 : p2.current_token_idx < p2.tokens.length :=
              Parser.idx_lt_of_peek_ne_eof (by rw [heq2]; decide)
            have hdrop2 := measure_advance_of_lt hlt2
            refine PRes.bind_ne_fuelOut
              ((ih (n - 1) (by omega) p2.advance (by omega)).2.2.2.2.1 g _ (by omega)) ?_
            intro ce p4 _
            simp
          · simp
      · simp
  exact ⟨hstmt, hexpr, hiter, hbody, hcompound, hei, hif, hfor, hfn⟩

/-! ## Declaration and program-loop lemmas -/

theorem parse_decl_stepOk (p : Parser) (fuel : Nat) :
    StepOk p.advance (parse_decl p fuel) := by
  by_cases hk : (p.peek).kind = TokenKind.Identifier
  · simp only [parse_decl, Parser.expect_and_consume_or_else]
    rw [if_pos hk]
    dsimp only
    split
    · refine stepOk_weaken (pchain_advance_right (pchain_advance p.advance))
        (StepOk.bind ((cluster_stepOk fuel).1 (p.advance.advance)) ?_)
      intro a p2
      exact stepOk_ok_of_chain (pchain_refl _)
    · trivial
  · simp only [parse_decl, Parser.expect_and_consume_or_else]
    rw [if_neg hk]
    dsimp only
    exact stepOk_err_of_chain (pchain_refl _)

theorem parse_decl_progress {p : Parser} {fuel : Nat}
    (hlt : p.current_token_idx < p.tokens.length) :
    (∀ d p', parse_decl p fuel = .ok d p' →
      p.current_token_idx + 1 ≤ p'.current_token_idx ∧ p'.tokens = p.tokens)
    ∧ (∀ e p', parse_decl p fuel = .err e p' →
      (p.current_token_idx + 1 ≤ p'.current_token_idx ∧ p'.tokens = p.tokens)
        ∧ e = CompileError.ExpectedDeclaration) := by
  have hstep := parse_decl_stepOk p fuel
  constructor
  · intro d p' h
    rw [h] at hstep
    obtain ⟨h1, h2, h3⟩ := hstep
    rw [Parser.advance_idx_of_lt hlt] at h1
    exact ⟨h1, h2.trans (Parser.advance_tokens p)⟩
  · intro e p' h
    rw [h] at hstep
    obtain ⟨⟨h1, h2, h3⟩, he⟩ := hstep
    rw [Parser.advance_idx_of_lt hlt] at h1
    exact ⟨⟨h1, h2.trans (Parser.advance_tokens p)⟩, he⟩

theorem parse_decl_ne_fuelOut (p : Parser) (fuel : Nat)
    (hf : 4 * (p.tokens.length - p.current_token_idx) + 1 ≤ fuel) :
    parse_decl p fuel ≠ .fuelOut := by
  by_cases hk : (p.peek).kind = TokenKind.Identifier
  · simp only [parse_decl, Parser.expect_and_consume_or_else]
    rw [if_pos hk]
    dsimp only
    split
    · refine PRes.bind_ne_fuelOut ?_ (by intro a q _; simp)
      have hme : p.advance.advance.tokens.length - p.advance.advance.current_token_idx
          ≤ p.tokens.length - p.current_token_idx := by
        have h1 := measure_advance_le p
        have h2 := measure_advance_le p.advance
        omega
      exact (cluster_sufficient (p.tokens.length - p.current_token_idx)
        p.advance.advance hme).1 fuel hf
    · simp
  · simp only [parse_decl, Parser.expect_and_consume_or_else]
    rw [if_neg hk]
    dsimp only
    simp

theorem parse_program_loop_ne_fuelOut : ∀ (n : Nat) (p : Parser),
    p.tokens.length - p.current_token_idx ≤ n →
    ∀ fuel, 4 * n + 5 ≤ fuel → parse_program_loop p fuel ≠ .fuelOut := by
  intro n
  induction n using Nat.strong_induction_on with
  | _ n ih =>
  intro p hm fuel hf
  cases fuel with
  | zero => omega
  | succ g =>
    simp only [parse_program_loop]
    split
    · simp
    · rename_i heof
      have hlt : p.current_token_idx < p.tokens.length := by
        simp only [Parser.has_reached_eof, decide_eq_true_eq] at heof
        omega
      have hn1 : 1 ≤ n := by omega
      have hdecl := parse_decl_ne_fuelOut p g (by omega)
      cases hd : parse_decl p g with
      | ok d p' =>
        have hprog := (@parse_decl_progress p g hlt).1 d p' hd
        have hloop := ih (n - 1) (by omega) p' (by rw [hprog.2]; omega) g (by omega)
        dsimp only
        cases hl : parse_program_loop p' g with
        | ok a q => dsimp only; obtain ⟨ds, es⟩ := a; simp
        | err e q => simp
        | panic => simp
        | fuelOut => exact absurd hl hloop
      | err e p' =>
        have hprog := (@parse_decl_progress p g hlt).2 e p' hd
        have hloop := ih (n - 1) (by omega) p' (by rw [hprog.1.2]; omega) g (by omega)
        dsimp only
        cases hl : parse_program_loop p' g with
        | ok a q => dsimp only; obtain ⟨ds, es⟩ := a; simp
        | err e2 q => simp
        | panic => simp
        | fuelOut => exact absurd hl hloop
      | panic => simp
      | fuelOut => exact absurd hd hdecl

theorem parse_program_loop_errs : ∀ (fuel : Nat) (p : Parser) (decls : List Decl)
    (errs : List CompileError) (p' : Parser),
    parse_program_loop p fuel = .ok (decls, errs) p' →
    ∀ e ∈ errs, e = CompileError.ExpectedDeclaration := by
  intro fuel
  induction fuel with
  | zero =>
    intro p decls errs p' h
    exact absurd h (by simp [parse_program_loop])
  | succ g ih =>
    intro p decls errs p' h
    simp only [parse_program_loop] at h
    split at h
    · cases h
      simp
    · cases hd : parse_decl p g with
      | ok d q =>
        rw [hd] at h
        dsimp only at h
        cases hl : parse_program_loop q g with
        | ok a q2 =>
          obtain ⟨ds, es⟩ := a
          rw [hl] at h
          dsimp only at h
          cases h
          exact ih _ _ _ _ hl
        | err e2 q2 => rw [hl] at h; exact absurd h (by simp)
        | panic => rw [hl] at h; exact absurd h (by simp)
        | fuelOut => rw [hl] at h; exact absurd h (by simp)
      | err e0 q =>
        have hstep := parse_decl_stepOk p g
        rw [hd] at hstep
        have he0 : e0 = CompileError.ExpectedDeclaration := hstep.2
        rw [hd] at h
        dsimp only at h
        cases hl : parse_program_loop q g with
        | ok a q2 =>
          obtain ⟨ds, es⟩ := a
          rw [hl] at h
          dsimp only at h
          cases h
          intro e he
          rcases List.mem_cons.mp he with rfl | he2
          · exact he0
          · exact ih _ _ _ _ hl e he2
        | err e2 q2 => rw [hl] at h; exact absurd h (by simp)
        | panic => rw [hl] at h; exact absurd h (by simp)
        | fuelOut => rw [hl] at h; exact absurd h (by simp)
      | panic => rw [hd] at h; exact absurd h (by simp)
      | fuelOut => rw [hd] at h; exact absurd h (by simp)

/-- Every error a `parse_program` diagnostic carries is
`ExpectedDeclaration`. -/
theorem parse_program_diag_errs (p : Parser) (fuel : Nat) (d : Diagnostic)
    (h : parse_program p fuel = .diag d) :
    ∀ e ∈ d.compile_errors, e = CompileError.ExpectedDeclaration := by
  unfold parse_program at h
  cases hl : parse_program_loop p fuel with
  | ok a p' =>
    obtain ⟨decls, errs⟩ := a
    rw [hl] at h
    dsimp only at h
    split at h
    · exact absurd h (by simp)
    · cases h
      exact parse_program_loop_errs fuel p decls errs p' hl
  | err e p' => rw [hl] at h; exact absurd h (by simp)
  | panic => rw [hl] at h; exact absurd h (by simp)
  | fuelOut => rw [hl] at h; exact absurd h (by simp)

/-! ## Claim C1: all-or-nothing output -/

/-- C1: the parse of a token buffer is all-or-nothing: given the
declaration loop's collected declarations and errors, `parse_program`
yields the `Diagnostic` of exactly the collected errors when at least
one declaration attempt failed, and otherwise the `Program` of all
successfully parsed declarations; a produced `Diagnostic` is never
empty, so there is no mixed partial output. -/
theorem claim_c1_all_or_nothing :
    ∀ (p0 : Parser) (fuel : Nat) (decls : List Decl) (errs : List CompileError)
      (p' : Parser),
      parse_program_loop p0 fuel = .ok (decls, errs) p' →
      (errs = [] → parse_program p0 fuel = ProgramResult.ok { decls := decls })
      ∧ (errs ≠ [] → parse_program p0 fuel = ProgramResult.diag { compile_errors := errs })
      ∧ (∀ d, parse_program p0 fuel = ProgramResult.diag d → d.compile_errors ≠ []) := by
  intro p0 fuel decls errs p' h
  unfold parse_program
  rw [h]
  dsimp only
  by_cases he : errs = []
  · rw [if_pos he]
    exact ⟨fun _ => rfl, fun hne => absurd he hne, fun d hd => absurd hd (by simp)⟩
  · rw [if_neg he]
    refine ⟨fun h0 => absurd h0 he, fun _ => rfl, fun d hd => ?_⟩
    injection hd with h2
    rw [← h2]
    exact he

/-- Witness for C1: the one-token buffer for the input `"42"` collects
exactly one error and yields exactly that diagnostic. -/
theorem claim_c1_witness :
    parse_program (Parser.new [(⟨TokenKind.IntegerConstant, ⟨0, 2⟩⟩ : Token)] "42".toList) 10
      = ProgramResult.diag { compile_errors := [CompileError.ExpectedDeclaration] } := by
  have h := claim_c1_all_or_nothing
    (Parser.new [(⟨TokenKind.IntegerConstant, ⟨0, 2⟩⟩ : Token)] "42".toList) 10
    [] [CompileError.ExpectedDeclaration]
    ⟨"42".toList, [(⟨TokenKind.IntegerConstant, ⟨0, 2⟩⟩ : Token)], 1⟩ (by rfl)
  exact h.2.1 (by simp)

/-! ## Claim C2: termination and one-token forward progress -/

/-- C2: the parser terminates on every finite token buffer — any fuel of
at least `4·len + 5` completes without running out — and every
declaration attempt of the top-level loop that starts strictly inside
the buffer advances the cursor by at least one token whether it
succeeds or fails, because the mandatory leading identifier expectation
consumes one token even on mismatch. -/
theorem claim_c2_termination :
    (∀ (tokens : List Token) (src : List Char) (fuel : Nat),
      4 * tokens.length + 5 ≤ fuel →
      parse_program (Parser.new tokens src) fuel ≠ ProgramResult.fuelOut)
    ∧ (∀ (p : Parser) (fuel : Nat),
        p.current_token_idx < p.tokens.length →
        (∀ d p', parse_decl p fuel = .ok d p' →
          p.current_token_idx + 1 ≤ p'.current_token_idx)
        ∧ (∀ e p', parse_decl p fuel = .err e p' →
          p.current_token_idx + 1 ≤ p'.current_token_idx)) := by
  constructor
  · intro tokens src fuel hf
    have hloop := parse_program_loop_ne_fuelOut tokens.length (Parser.new tokens src)
      (by simp [Parser.new]) fuel hf
    unfold parse_program
    cases hl : parse_program_loop (Parser.new tokens src) fuel with
    | ok a p' =>
      obtain ⟨ds, es⟩ := a
      dsimp only
      split <;> simp
    | err e p' => simp
    | panic => simp
    | fuelOut => exact absurd hl hloop
  · intro p fuel hlt
    exact ⟨fun d p' h => ((parse_decl_progress hlt).1 d p' h).1,
           fun e p' h => ((parse_decl_progress hlt).2 e p' h).1.1⟩

/-- Witness for C2: fuel `9 = 4·1 + 5` completes the one-token buffer
for `"42"`, and the failed declaration attempt still moved the cursor
from 0 to 1. -/
theorem claim_c2_witness :
    parse_program (Parser.new [(⟨TokenKind.IntegerConstant, ⟨0, 2⟩⟩ : Token)] "42".toList) 9 ≠ ProgramResult.fuelOut
    ∧ (Parser.new [(⟨TokenKind.IntegerConstant, ⟨0, 2⟩⟩ : Token)] "42".toList).current_token_idx + 1
      ≤ (⟨"42".toList, [(⟨TokenKind.IntegerConstant, ⟨0, 2⟩⟩ : Token)], 1⟩ : Parser).current_token_idx := by
  refine ⟨claim_c2_termination.1 _ "42".toList 9 (by decide), ?_⟩
  exact (claim_c2_termination.2 (Parser.new [(⟨TokenKind.IntegerConstant, ⟨0, 2⟩⟩ : Token)] "42".toList) 5 (by decide)).2
    CompileError.ExpectedDeclaration _ (by rfl)

/-! ## Claim C3: reachability of ExpectedButFound -/

/-- Counterexample for C3: contrary to the claim, no token buffer, fuel
and diagnostic ever contain an `ExpectedButFound` error — that
variant's only producer, `Parser.expect_and_consume`, has no callers in
the parser. -/
theorem claim_c3_counterexample :
    ¬ ∃ (p0 : Parser) (fuel : Nat) (d : Diagnostic) (k : TokenKind) (t : Token),
        parse_program p0 fuel = ProgramResult.diag d
          ∧ CompileError.ExpectedButFound k t ∈ d.compile_errors := by
  rintro ⟨p0, fuel, d, k, t, h, hmem⟩
  have h1 := parse_program_diag_errs p0 fuel d h _ hmem
  exact absurd h1 (by simp)

/-- C3 (amended): `ExpectedButFound` is reachable from no path at all:
every error in any diagnostic `parse_program` produces is
`ExpectedDeclaration`, never `ExpectedButFound`. -/
theorem claim_c3_amended :
    ∀ (p0 : Parser) (fuel : Nat) (d : Diagnostic),
      parse_program p0 fuel = ProgramResult.diag d →
      ∀ e ∈ d.compile_errors, e = CompileError.ExpectedDeclaration
        ∧ ∀ (k : TokenKind) (t : Token), e ≠ CompileError.ExpectedButFound k t := by
  intro p0 fuel d h e he
  have h1 := parse_program_diag_errs p0 fuel d h e he
  refine ⟨h1, fun k t hk => ?_⟩
  rw [h1] at hk
  exact absurd hk (by simp)

/-- Witness for C3 (amended): the diagnostic for the input `"42"`
contains only `ExpectedDeclaration`. -/
theorem claim_c3_witness :
    CompileError.ExpectedDeclaration
      ≠ CompileError.ExpectedButFound TokenKind.Identifier Token.eof := by
  exact (claim_c3_amended
    (Parser.new [(⟨TokenKind.IntegerConstant, ⟨0, 2⟩⟩ : Token)] "42".toList) 10
    { compile_errors := [CompileError.ExpectedDeclaration] } (by rfl)
    CompileError.ExpectedDeclaration (List.mem_cons_self _ _)).2
    TokenKind.Identifier Token.eof

/-! ## Claim C8: integer literals -/

theorem digit_ne_char {c d : Char} (h : isAsciiDigit c = true)
    (hd : isAsciiDigit d = false) : c ≠ d := by
  intro he
  rw [he] at h
  rw [h] at hd
  exact absurd hd (by simp)

/-- Rust `str::parse::<i32>` on non-empty all-digit text: success with
the digit value exactly when it fits in `i32`. -/
theorem rustParseI32_digits {text : List Char} (hne : text ≠ [])
    (hdig : ∀ c ∈ text, isAsciiDigit c = true) :
    rustParseI32 text = if digitsToNat text ≤ 2 ^ 31 - 1
      then some (Int.ofNat (digitsToNat text)) else none := by
  cases text with
  | nil => exact absurd rfl hne
  | cons c cs =>
    have hc := hdig c (List.mem_cons_self c cs)
    have hplus : c ≠ '+' := digit_ne_char hc (by decide)
    have hminus : c ≠ '-' := digit_ne_char hc (by decide)
    unfold rustParseI32
    split
    · rename_i rest heq
      injection heq with hh _
      exact absurd hh hplus
    · rename_i rest heq
      injection heq with hh _
      exact absurd hh hminus
    · rw [if_pos ⟨hne, List.all_eq_true.mpr hdig⟩]

/-- C8: when the current token is an `IntegerConstant`, the parser
parses the token's text as a signed 32-bit integer; under the
precondition that the (non-empty) all-digit text denotes a value at
most `2^31 - 1`, the parse never fails and `Expr.Const` carries exactly
that value, whereas overflow is a fatal invariant violation (the
`unwrap` dies), never a recoverable `CompileError` diagnostic. -/
theorem claim_c8_integer_literal :
    ∀ (p : Parser) (fuel : Nat),
      (p.peek).kind = TokenKind.IntegerConstant →
      get_text_snippet p.src ((p.peek).span) ≠ [] →
      (∀ c ∈ get_text_snippet p.src ((p.peek).span), isAsciiDigit c = true) →
      (digitsToNat (get_text_snippet p.src ((p.peek).span)) ≤ 2 ^ 31 - 1 →
        parse_statement_expr p (fuel + 1)
          = .ok (Expr.Const
              (Int.ofNat (digitsToNat (get_text_snippet p.src ((p.peek).span)))))
              p.advance)
      ∧ (2 ^ 31 - 1 < digitsToNat (get_text_snippet p.src ((p.peek).span)) →
        parse_statement_expr p (fuel + 1) = .panic) := by
  intro p fuel hk hne hdig
  have hsrc : p.advance.src = p.src := Parser.advance_src p
  have hparse := rustParseI32_digits hne hdig
  constructor
  · intro hle
    simp only [parse_statement_expr]
    rw [hk]
    dsimp only
    rw [hsrc, hparse, if_pos hle]
  · intro hgt
    simp only [parse_statement_expr]
    rw [hk]
    dsimp only
    rw [hsrc, hparse, if_neg (by omega)]

/-- Witness for C8: the token over the text `"42"` parses to
`Expr.Const 42`. -/
theorem claim_c8_witness :
    parse_statement_expr
        (Parser.new [(⟨TokenKind.IntegerConstant, ⟨0, 2⟩⟩ : Token)] "42".toList) 5
      = .ok (Expr.Const 42) ⟨"42".toList, [⟨TokenKind.IntegerConstant, ⟨0, 2⟩⟩], 1⟩ := by
  have h := (claim_c8_integer_literal
    (Parser.new [(⟨TokenKind.IntegerConstant, ⟨0, 2⟩⟩ : Token)] "42".toList) 4
    (by rfl) (by decide) (by decide)).1 (by decide)
  exact h

/-! ## Claim C7: range kind fidelity -/

/-- An iterative header's range kind is `Inclusive` exactly when the
range-operator token it consumed is `PeriodPeriodEqual`, and that token
is always either `..=` or `..` (any other token dies on the
`debug_assert_eq!`). -/
theorem parse_for_iteration_range :
    ∀ (p0 : Parser) (fuel : Nat) (iter : Option ForIteration) (p' : Parser),
      parse_for_iteration p0 fuel = .ok iter p' →
      ∀ ident s e rk, iter = some (ForIteration.Iterative ident s e rk) →
      ∃ j, j < p0.tokens.length
        ∧ (rk = RangeKind.Inclusive
            ↔ (p0.tokens.getD j Token.eof).kind = TokenKind.PeriodPeriodEqual)
        ∧ ((p0.tokens.getD j Token.eof).kind = TokenKind.PeriodPeriodEqual
            ∨ (p0.tokens.getD j Token.eof).kind = TokenKind.PeriodPeriod) := by
  intro p0 fuel iter p' h ident s e rk hiter
  cases fuel with
  | zero => exact absurd h (by simp [parse_for_iteration])
  | succ g =>
    simp only [parse_for_iteration] at h
    split at h
    · try dsimp only at h
      split at h
      · obtain ⟨st, p3, h1, h2⟩ := PRes.bind_eq_ok h
        have hstep := (cluster_stepOk g).2.1 p0.advance.advance
        rw [h1] at hstep
        have htoks : p3.tokens = p0.tokens :=
          hstep.2.1.trans ((Parser.advance_tokens _).trans (Parser.advance_tokens _))
        try dsimp only at h2
        split at h2
        · rename_i hppe
          obtain ⟨en, p5, h3, h4⟩ := PRes.bind_eq_ok h2
          cases h4
          injection hiter with hiter2
          injection hiter2 with e1 e2 e3 e4
          refine ⟨p3.current_token_idx, ?_, ?_, ?_⟩
          · have hlt := Parser.idx_lt_of_peek_ne_eof (p := p3) (by rw [hppe]; decide)
            rw [htoks] at hlt
            exact hlt
          · have : (p0.tokens.getD p3.current_token_idx Token.eof).kind
                = TokenKind.PeriodPeriodEqual := by
              rw [← htoks]
              exact hppe
            exact ⟨fun _ => this, fun _ => e4.symm⟩
          · left
            rw [← htoks]
            exact hppe
        · split at h2
          · rename_i hnppe hpp
            obtain ⟨en, p5, h3, h4⟩ := PRes.bind_eq_ok h2
            cases h4
            injection hiter with hiter2
            injection hiter2 with e1 e2 e3 e4
            refine ⟨p3.current_token_idx, ?_, ?_, ?_⟩
            · have hlt := Parser.idx_lt_of_peek_ne_eof (p := p3) (by rw [hpp]; decide)
              rw [htoks] at hlt
              exact hlt
            · constructor
              · intro hx
                rw [← e4] at hx
                exact absurd hx (by simp)
              · intro hx
                rw [← htoks] at hx
                have hk : (p3.tokens.getD p3.current_token_idx Token.eof).kind
                    = TokenKind.PeriodPeriod := hpp
                exact absurd (hk.symm.trans hx) (by decide)
            · right
              rw [← htoks]
              exact hpp
          · exact absurd h2 (by simp)
      · exact absurd h (by simp)
    · split at h
      · obtain ⟨c, p1, h1, h2⟩ := PRes.bind_eq_ok h
        cases h2
        exact absurd hiter (by simp)
      · cases h
        exact absurd hiter (by simp)

/-- C7: in a for expression's iterative form, the range kind of the
produced `ForIteration.Iterative` is `Inclusive` exactly when the
consumed range-operator token is `..=` and `Exclusive` when it is
`..`; in particular the declarations `x :: for i: 0..5 {}` and
`x :: for i: 0..=5 {}` produce `Exclusive` and `Inclusive`
respectively. -/
theorem claim_c7_range_kind :
    (∀ (p0 : Parser) (fuel : Nat) (expr : Expr) (p' : Parser),
      parse_for_expr p0 fuel = .ok expr p' →
      ∀ ident s e rk body,
        expr = Expr.For (ForExpr.mk (some (ForIteration.Iterative ident s e rk)) body) →
        ∃ j, j < p0.tokens.length
          ∧ (rk = RangeKind.Inclusive
              ↔ (p0.tokens.getD j Token.eof).kind = TokenKind.PeriodPeriodEqual)
          ∧ ((p0.tokens.getD j Token.eof).kind = TokenKind.PeriodPeriodEqual
              ∨ (p0.tokens.getD j Token.eof).kind = TokenKind.PeriodPeriod))
    ∧ (Scanner.new "x :: for i: 0..5 {}".toList).scanAllTokens
        = .ok [⟨TokenKind.Identifier, ⟨0, 1⟩⟩, ⟨TokenKind.ColonColon, ⟨2, 4⟩⟩,
            ⟨TokenKind.Keyword Keyword.For, ⟨5, 8⟩⟩, ⟨TokenKind.Identifier, ⟨9, 10⟩⟩,
            ⟨TokenKind.Colon, ⟨10, 11⟩⟩, ⟨TokenKind.IntegerConstant, ⟨12, 13⟩⟩,
            ⟨TokenKind.PeriodPeriod, ⟨13, 15⟩⟩, ⟨TokenKind.IntegerConstant, ⟨15, 16⟩⟩,
            ⟨TokenKind.Open Delim.Curly, ⟨17, 18⟩⟩, ⟨TokenKind.Closed Delim.Curly, ⟨18, 19⟩⟩]
    ∧ parse_program (Parser.new
          [⟨TokenKind.Identifier, ⟨0, 1⟩⟩, ⟨TokenKind.ColonColon, ⟨2, 4⟩⟩,
           ⟨TokenKind.Keyword Keyword.For, ⟨5, 8⟩⟩, ⟨TokenKind.Identifier, ⟨9, 10⟩⟩,
           ⟨TokenKind.Colon, ⟨10, 11⟩⟩, ⟨TokenKind.IntegerConstant, ⟨12, 13⟩⟩,
           ⟨TokenKind.PeriodPeriod, ⟨13, 15⟩⟩, ⟨TokenKind.IntegerConstant, ⟨15, 16⟩⟩,
           ⟨TokenKind.Open Delim.Curly, ⟨17, 18⟩⟩, ⟨TokenKind.Closed Delim.Curly, ⟨18, 19⟩⟩]
          "x :: for i: 0..5 {}".toList) 20
        = ProgramResult.ok ⟨[⟨"x".toList, Expr.For (ForExpr.mk
            (some (ForIteration.Iterative "i".toList (Expr.Const 0) (Expr.Const 5)
              RangeKind.Exclusive)) (CompoundExpr.mk []))⟩]⟩
    ∧ (Scanner.new "x :: for i: 0..=5 {}".toList).scanAllTokens
        = .ok [⟨TokenKind.Identifier, ⟨0, 1⟩⟩, ⟨TokenKind.ColonColon, ⟨2, 4⟩⟩,
            ⟨TokenKind.Keyword Keyword.For, ⟨5, 8⟩⟩, ⟨TokenKind.Identifier, ⟨9, 10⟩⟩,
            ⟨TokenKind.Colon, ⟨10, 11⟩⟩, ⟨TokenKind.IntegerConstant, ⟨12, 13⟩⟩,
            ⟨TokenKind.PeriodPeriodEqual, ⟨13, 16⟩⟩, ⟨TokenKind.IntegerConstant, ⟨16, 17⟩⟩,
            ⟨TokenKind.Open Delim.Curly, ⟨18, 19⟩⟩, ⟨TokenKind.Closed Delim.Curly, ⟨19, 20⟩⟩]
    ∧ parse_program (Parser.new
          [⟨TokenKind.Identifier, ⟨0, 1⟩⟩, ⟨TokenKind.ColonColon, ⟨2, 4⟩⟩,
           ⟨TokenKind.Keyword Keyword.For, ⟨5, 8⟩⟩, ⟨TokenKind.Identifier, ⟨9, 10⟩⟩,
           ⟨TokenKind.Colon, ⟨10, 11⟩⟩, ⟨TokenKind.IntegerConstant, ⟨12, 13⟩⟩,
           ⟨TokenKind.PeriodPeriodEqual, ⟨13, 16⟩⟩, ⟨TokenKind.IntegerConstant, ⟨16, 17⟩⟩,
           ⟨TokenKind.Open Delim.Curly, ⟨18, 19⟩⟩, ⟨TokenKind.Closed Delim.Curly, ⟨19, 20⟩⟩]
          "x :: for i: 0..=5 {}".toList) 20
        = ProgramResult.ok ⟨[⟨"x".toList, Expr.For (ForExpr.mk
            (some (ForIteration.Iterative "i".toList (Expr.Const 0) (Expr.Const 5)
              RangeKind.Inclusive)) (CompoundExpr.mk []))⟩]⟩ := by
  refine ⟨?_, by rfl, by rfl, by rfl, by rfl⟩
  intro p0 fuel expr p' h ident s e rk body hexpr
  cases fuel with
  | zero => exact absurd h (by simp [parse_for_expr])
  | succ g =>
    simp only [parse_for_expr] at h
    obtain ⟨iter, p1, h1, h2⟩ := PRes.bind_eq_ok h
    try dsimp only at h2
    split at h2
    · obtain ⟨b, p2, h3, h4⟩ := PRes.bind_eq_ok h2
      cases h4
      injection hexpr with hfor
      injection hfor with hit hbody
      exact parse_for_iteration_range p0 g iter p1 h1 ident s e rk hit
    · exact absurd h2 (by simp)

/-- Witness for C7: the header of `for i: 0..5` consumes `..` at token
index 3 and produces `Exclusive`. -/
theorem claim_c7_witness :
    ∃ j, j < ([⟨TokenKind.Keyword Keyword.For, ⟨0, 3⟩⟩, ⟨TokenKind.Identifier, ⟨4, 5⟩⟩,
        ⟨TokenKind.Colon, ⟨5, 6⟩⟩, ⟨TokenKind.IntegerConstant, ⟨7, 8⟩⟩,
        ⟨TokenKind.PeriodPeriod, ⟨8, 10⟩⟩, ⟨TokenKind.IntegerConstant, ⟨10, 11⟩⟩,
        ⟨TokenKind.Open Delim.Curly, ⟨12, 13⟩⟩,
        ⟨TokenKind.Closed Delim.Curly, ⟨13, 14⟩⟩] : List Token).length
      ∧ (RangeKind.Exclusive = RangeKind.Inclusive
          ↔ (([⟨TokenKind.Keyword Keyword.For, ⟨0, 3⟩⟩, ⟨TokenKind.Identifier, ⟨4, 5⟩⟩,
              ⟨TokenKind.Colon, ⟨5, 6⟩⟩, ⟨TokenKind.IntegerConstant, ⟨7, 8⟩⟩,
              ⟨TokenKind.PeriodPeriod, ⟨8, 10⟩⟩, ⟨TokenKind.IntegerConstant, ⟨10, 11⟩⟩,
              ⟨TokenKind.Open Delim.Curly, ⟨12, 13⟩⟩,
              ⟨TokenKind.Closed Delim.Curly, ⟨13, 14⟩⟩] : List Token).getD j
            Token.eof).kind = TokenKind.PeriodPeriodEqual)
      ∧ ((([⟨TokenKind.Keyword Keyword.For, ⟨0, 3⟩⟩, ⟨TokenKind.Identifier, ⟨4, 5⟩⟩,
              ⟨TokenKind.Colon, ⟨5, 6⟩⟩, ⟨TokenKind.IntegerConstant, ⟨7, 8⟩⟩,
              ⟨TokenKind.PeriodPeriod, ⟨8, 10⟩⟩, ⟨TokenKind.IntegerConstant, ⟨10, 11⟩⟩,
              ⟨TokenKind.Open Delim.Curly, ⟨12, 13⟩⟩,
              ⟨TokenKind.Closed Delim.Curly, ⟨13, 14⟩⟩] : List Token).getD j
            Token.eof).kind = TokenKind.PeriodPeriodEqual
          ∨ (([⟨TokenKind.Keyword Keyword.For, ⟨0, 3⟩⟩, ⟨TokenKind.Identifier, ⟨4, 5⟩⟩,
              ⟨TokenKind.Colon, ⟨5, 6⟩⟩, ⟨TokenKind.IntegerConstant, ⟨7, 8⟩⟩,
              ⟨TokenKind.PeriodPeriod, ⟨8, 10⟩⟩, ⟨TokenKind.IntegerConstant, ⟨10, 11⟩⟩,
              ⟨TokenKind.Open Delim.Curly, ⟨12, 13⟩⟩,
              ⟨TokenKind.Closed Delim.Curly, ⟨13, 14⟩⟩] : List Token).getD j
            Token.eof).kind = TokenKind.PeriodPeriod) := by
  refine claim_c7_range_kind.1
    (Parser.new [⟨TokenKind.Keyword Keyword.For, ⟨0, 3⟩⟩, ⟨TokenKind.Identifier, ⟨4, 5⟩⟩,
        ⟨TokenKind.Colon, ⟨5, 6⟩⟩, ⟨TokenKind.IntegerConstant, ⟨7, 8⟩⟩,
        ⟨TokenKind.PeriodPeriod, ⟨8, 10⟩⟩, ⟨TokenKind.IntegerConstant, ⟨10, 11⟩⟩,
        ⟨TokenKind.Open Delim.Curly, ⟨12, 13⟩⟩,
        ⟨TokenKind.Closed Delim.Curly, ⟨13, 14⟩⟩]
      "for i: 0..5 {}".toList).advance 15 _ _ (by rfl)
    "i".toList (Expr.Const 0) (Expr.Const 5) RangeKind.Exclusive (CompoundExpr.mk [])
    (by rfl)

end Sophia
